import Mathlib

set_option linter.unusedSectionVars false
set_option linter.unusedVariables false

/-!
Verification of the corporate-portal handbook core (backend `server.ts` /
`part_000`, frontend `Handbook.tsx`) against its natural-language
specification.

Shallow embedding conventions:
* JavaScript strings are Lean `String`s; `toLowerCase` is modelled as a
  character-wise `Char.toLower` map (`lowerStr`), and `localeCompare` of two
  lowercased strings as lexicographic comparison of the character lists
  (`leL`).  `Array.prototype.sort` (stable since ES2019) is modelled by the
  stable insertion sort `sortS`.
* A JavaScript object used as an ordered string-keyed map (the grouped
  office data) is modelled as an association list in insertion order.
* Excel cells are `Option String` (absent or text); a cell is falsy when it
  is absent or the empty string.  `sanitize-html` with `allowedTags: []`,
  `allowedAttributes: {}` is modelled as the tag-stripping automaton
  `stripTags` (text outside `<`...`>` spans is kept), followed by `trim`.
* `parseInt` is modelled base-10 (`parseIntM`): optional leading whitespace,
  optional sign, then leading digits; `none` plays the role of `NaN`.
* The mutable server cache (`cachedData` / `lastModifiedTime`) is explicit
  state threaded through `loadHandbookData`, whose third result component
  counts how many times the Excel file was read and parsed during the call.
* The client sync cycle `fetchData` is a pure function of its environment:
  the cache-read outcome, the `navigator.onLine` flag, the fetch result
  (`none` for any network/HTTP/envelope failure) and the current time in
  milliseconds.
-/

/-- ASCII whitespace recognised by the `trim` model. -/
def isWsChar (c : Char) : Bool :=
  c = ' ' || c = '\t' || c = '\n' || c = '\r'

/-- Lexicographic less-or-equal on character lists; model of
`localeCompare(a, b) <= 0` for the lowercased strings used by the code. -/
def leL : List Char → List Char → Bool
  | [], _ => true
  | _ :: _, [] => false
  | a :: as, b :: bs => if a = b then leL as bs else decide (a < b)

/-- Characters of a string after `toLowerCase` (character-wise model). -/
def lowerStr (s : String) : List Char :=
  s.data.map Char.toLower

/-- `startsW hay needle`: `needle` is a prefix of `hay`. -/
def startsW : List Char → List Char → Bool
  | _, [] => true
  | [], _ :: _ => false
  | h :: hs, n :: ns => decide (h = n) && startsW hs ns

/-- `hasSub hay needle`: model of `String.prototype.includes` —
`needle` occurs contiguously inside `hay`. -/
def hasSub : List Char → List Char → Bool
  | hay, needle =>
    startsW hay needle ||
      match hay with
      | [] => false
      | _ :: t => hasSub t needle

/-- Tag-stripping automaton modelling `sanitize-html` with no allowed tags
and no allowed attributes: characters inside a `<`...`>` span are dropped,
the rest kept.  The Bool argument is the "currently inside a tag" state. -/
def stripTags : List Char → Bool → List Char
  | [], _ => []
  | c :: rest, true => if c = '>' then stripTags rest false else stripTags rest true
  | c :: rest, false => if c = '<' then stripTags rest true else c :: stripTags rest false

/-- Model of `String.prototype.trim` on character lists. -/
def trimChars (l : List Char) : List Char :=
  ((l.dropWhile isWsChar).reverse.dropWhile isWsChar).reverse

/-- `sanitizeString` (server, `part_000` lines 71-74) on a present string:
`sanitizeHtml(input, {allowedTags: [], allowedAttributes: {}}).trim()`. -/
def sanitizeString (s : String) : String :=
  String.mk (trimChars (stripTags s.data false))

/-- Numeric value of a digit run. -/
def digitsVal (ds : List Char) : Int :=
  ds.foldl (fun a c => a * 10 + (Int.ofNat (c.toNat - 48))) 0

/-- Base-10 model of JavaScript `parseInt`: skip leading whitespace, read an
optional sign and then leading digits; `none` models `NaN`. -/
def parseIntM (s : String) : Option Int :=
  let cs := s.data.dropWhile isWsChar
  let signed : Int × List Char :=
    match cs with
    | '-' :: t => (-1, t)
    | '+' :: t => (1, t)
    | _ => (1, cs)
  let ds := signed.2.takeWhile Char.isDigit
  if ds.isEmpty then none else some (signed.1 * digitsVal ds)

/-- JavaScript `x || d` for the result of `parseInt`: `NaN` (here `none`)
and `0` are falsy and fall through to the default. -/
def jsOrInt (o : Option Int) (d : Int) : Int :=
  match o with
  | none => d
  | some n => if n = 0 then d else n

/-- Stable insertion of `x` into a list sorted by the comparator key:
`x` is placed before the first element it need not follow.  Matches the
stable behaviour of `Array.prototype.sort` when used via `sortS`. -/
def insertS {α κ : Type} (key : α → κ) (kle : κ → κ → Bool) (x : α) :
    List α → List α
  | [] => [x]
  | y :: ys => if kle (key x) (key y) then x :: y :: ys else y :: insertS key kle x ys

/-- Stable sort (model of `Array.prototype.sort` with a consistent
comparator): sorts by the key order `kle`, keeping equal-key elements in
their original relative order. -/
def sortS {α κ : Type} (key : α → κ) (kle : κ → κ → Bool) : List α → List α
  | [] => []
  | x :: xs => insertS key kle x (sortS key kle xs)

/-- First-occurrence deduplication of a list (order of JavaScript object
keys: each key appears once, at the position of its first insertion). -/
def dd {κ : Type} [DecidableEq κ] : List κ → List κ
  | [] => []
  | k :: r => k :: (dd r).filter (fun x => !(decide (x = k)))

/-- Person record (`OfficeEmployee` in both backend and frontend). -/
structure OfficeEmployee where
  department : String
  sortPriority : Int
  position : String
  fullName : String
  internalNumber : String
  generalNumber : String
deriving DecidableEq

/-- Room record (`Cabinet`). -/
structure Cabinet where
  city : String
  address : String
  internalNumber : String
deriving DecidableEq

/-- One department group of the grouped office view:
`{employees: OfficeEmployee[], generalNumber: string}`. -/
structure DeptGroup where
  employees : List OfficeEmployee
  generalNumber : String
deriving DecidableEq

/-- `employee.department || "Без отдела"`: the department key an employee is
grouped under (empty department falls back to the sentinel label). -/
def deptKey (e : OfficeEmployee) : String :=
  if e.department = "" then "Без отдела" else e.department

/-- `employee.generalNumber || "—"`: the shared number recorded when a group
is created from its first employee. -/
def gnOf (e : OfficeEmployee) : String :=
  if e.generalNumber = "" then "—" else e.generalNumber

/-- The group built over an employee list: the list itself plus the general
number taken from its first element. -/
def mkGroup (es : List OfficeEmployee) : DeptGroup :=
  { employees := es
    generalNumber := match es with | [] => "—" | e :: _ => gnOf e }

/-- One step of the `reduce` in `groupAndSortOfficeData` (Handbook.tsx lines
64-77): push the employee onto its department's group, creating the group
(with `generalNumber` from this first employee) if absent. -/
def addEmp (acc : List (String × DeptGroup)) (e : OfficeEmployee) :
    List (String × DeptGroup) :=
  let d := deptKey e
  if acc.any (fun p => decide (p.1 = d)) then
    acc.map (fun p =>
      if p.1 = d then
        (p.1, { employees := p.2.employees ++ [e], generalNumber := p.2.generalNumber })
      else p)
  else
    acc ++ [(d, { employees := [e], generalNumber := gnOf e })]

/-- The `reduce` fold of `groupAndSortOfficeData`: group an (already sorted)
employee list into an association list in first-occurrence key order. -/
def groupPairs (l : List OfficeEmployee) : List (String × DeptGroup) :=
  l.foldl addEmp []

/-- Sort key of an employee: `(sortPriority, fullName.toLowerCase())`. -/
def empKey (e : OfficeEmployee) : Int × List Char :=
  (e.sortPriority, lowerStr e.fullName)

/-- Comparator order on employee sort keys: priority ascending, ties broken
by the lowercased full name (model of the comparator at Handbook.tsx lines
56-62, as a less-or-equal). -/
def pkLe (a b : Int × List Char) : Bool :=
  if a.1 = b.1 then leL a.2 b.2 else decide (a.1 < b.1)

/-- Lowercased characters of a department key, the sort key of the final
key-ordering pass (Handbook.tsx lines 79-81). -/
def dkLow (d : String) : List Char :=
  lowerStr d

/-- `groupAndSortOfficeData` (Handbook.tsx lines 55-89): stable-sort the
employees by (priority, lowercased name), fold them into department groups
in first-occurrence order, then stable-sort the groups by lowercased
department key.  The final object rebuild in sorted key order is the
key-sort of the association list. -/
def groupAndSortOfficeData (data : List OfficeEmployee) : List (String × DeptGroup) :=
  sortS (fun p => dkLow p.1) leL (groupPairs (sortS empKey pkLe data))

/-- Flattening of a grouped result: concatenate the `employees` arrays of
its groups in key order. -/
def flattenGroups (g : List (String × DeptGroup)) : List OfficeEmployee :=
  g.flatMap (fun p => p.2.employees)

/-- Sort key of a cabinet: lowercased city then lowercased address. -/
def cabKey (c : Cabinet) : List Char × List Char :=
  (lowerStr c.city, lowerStr c.address)

/-- Comparator order on cabinet keys (Handbook.tsx lines 96-104). -/
def cabLe (a b : List Char × List Char) : Bool :=
  if a.1 = b.1 then leL a.2 b.2 else leL a.1 b.1

/-- `sortCabinetData` (Handbook.tsx lines 96-104). -/
def sortCabinetData (data : List Cabinet) : List Cabinet :=
  sortS cabKey cabLe data

/-- `filterData` (Handbook.tsx lines 224-241): empty query returns the items
unchanged; otherwise keep an item when some selected field, lowercased,
contains the lowercased query as a substring. -/
def filterData {α : Type} (items : List α) (query : String) (keys : List (α → String)) :
    List α :=
  if query.isEmpty then items
  else
    let lowerQuery := lowerStr query
    items.filter (fun item => keys.any (fun k => hasSub (lowerStr (k item)) lowerQuery))

/-- An Excel cell: absent, or a text value.  A cell is falsy (for the blank
row check) when absent or empty. -/
def Cell : Type := Option String

/-- A raw sheet row after `row.values.slice(1)`: the cell list starting at
the first data column. -/
def RawRow : Type := List Cell

/-- Falsy test on a cell (`!val`). -/
def cellEmpty (c : Cell) : Bool :=
  match c with
  | none => true
  | some s => s.isEmpty

/-- `cleanValues[i]`: reading past the end of the row yields an absent cell. -/
def cellAt (r : RawRow) (i : Nat) : Cell :=
  r.getD i none

/-- `sanitizeString(cleanValues[i])` including the falsy short-circuit
(`if (!input) return ""`). -/
def sanitizeCell (c : Cell) : String :=
  match c with
  | none => ""
  | some s => if s.isEmpty then "" else sanitizeString s

/-- Normalizer for one people row (`part_000` lines 106-119): skip the row
when every cell is falsy, otherwise build the Person record; the priority
cell is sanitized, parsed as an integer, and defaulted through `|| 99`. -/
def normalizeOfficeRow (r : RawRow) : Option OfficeEmployee :=
  if r.all cellEmpty then none
  else some
    { department := sanitizeCell (cellAt r 0)
      sortPriority := jsOrInt (parseIntM (sanitizeCell (cellAt r 1))) 99
      position := sanitizeCell (cellAt r 2)
      fullName := sanitizeCell (cellAt r 3)
      internalNumber := sanitizeCell (cellAt r 4)
      generalNumber := sanitizeCell (cellAt r 5) }

/-- Normalizer for one rooms row (`part_000` lines 124-134). -/
def normalizeCabinetRow (r : RawRow) : Option Cabinet :=
  if r.all cellEmpty then none
  else some
    { city := sanitizeCell (cellAt r 0)
      address := sanitizeCell (cellAt r 1)
      internalNumber := sanitizeCell (cellAt r 2) }

/-- A parsed workbook: each expected sheet may be absent; a sheet is its row
list (1-indexed via position, the first row being the header). -/
structure RawWorkbook where
  officeSheet : Option (List RawRow)
  cabinetsSheet : Option (List RawRow)

/-- People sheet traversal: a missing sheet yields no records; otherwise the
header row is skipped and each remaining row normalized or dropped. -/
def normalizeOfficeSheet (sheet : Option (List RawRow)) : List OfficeEmployee :=
  match sheet with
  | none => []
  | some rows => (rows.drop 1).filterMap normalizeOfficeRow

/-- Rooms sheet traversal. -/
def normalizeCabinetsSheet (sheet : Option (List RawRow)) : List Cabinet :=
  match sheet with
  | none => []
  | some rows => (rows.drop 1).filterMap normalizeCabinetRow

/-- The server snapshot: `{timestamp, office, cabinets}`. -/
structure HandbookData where
  timestamp : Nat
  office : List OfficeEmployee
  cabinets : List Cabinet
deriving DecidableEq

/-- Observation of the Excel file during one request: its modification time
in milliseconds, and the parse outcome (`none` when `readFile` throws). -/
structure FileRead where
  mtime : Nat
  content : Option RawWorkbook

/-- The server's mutable cache slot (`cachedData` / `lastModifiedTime`). -/
structure ServerCache where
  cachedData : Option HandbookData
  lastModifiedTime : Nat
deriving DecidableEq

/-- `loadHandbookData` (`part_000` lines 82-150) as a state transition.  The
argument `file` is `none` when the file does not exist.  Result: the value
returned to the caller, the cache state after the call, and the number of
parse attempts (`workbook.xlsx.readFile` invocations) the call performed.
A thrown parse error is caught and turned into `null` without touching the
cache slot. -/
def loadHandbookData (st : ServerCache) (file : Option FileRead) :
    Option HandbookData × ServerCache × Nat :=
  match file with
  | none => (none, st, 0)
  | some f =>
    if st.cachedData.isSome && st.lastModifiedTime == f.mtime then
      (st.cachedData, st, 0)
    else
      match f.content with
      | none => (none, st, 1)
      | some wb =>
        let d : HandbookData :=
          { timestamp := f.mtime
            office := normalizeOfficeSheet wb.officeSheet
            cabinets := normalizeCabinetsSheet wb.cabinetsSheet }
        (some d, { cachedData := some d, lastModifiedTime := f.mtime }, 1)

/-- `cacheStatus` reported by the `/health` endpoint. -/
def healthCacheStatus (st : ServerCache) : String :=
  match st.cachedData with
  | some _ => "active"
  | none => "empty"

/-- The JSON envelope of `/api/handbook`. -/
inductive Envelope where
  | success (d : HandbookData)
  | error (msg : String)
deriving DecidableEq

/-- Response built by the handbook endpoint from the loader result. -/
def handbookResponse (r : Option HandbookData) : Envelope :=
  match r with
  | some d => Envelope.success d
  | none => Envelope.error "Не удалось загрузить данные справочника."

/-- The client's transformed view: grouped office data plus sorted rooms. -/
structure ViewData where
  office : List (String × DeptGroup)
  cabinets : List Cabinet
deriving DecidableEq

/-- The Cached Envelope persisted under `handbook_data_cache`:
transformed view, server freshness key, local fetch time (ms). -/
structure CachedData where
  data : ViewData
  timestamp : Nat
  fetchTime : Nat
deriving DecidableEq

/-- Outcome of `localforage.getItem` at the start of a sync cycle: the read
may throw, return nothing, or return a previously stored envelope. -/
inductive CacheRead where
  | readFailed
  | readOk (c : Option CachedData)

/-- The envelope the cycle works with: a failed read is treated as no cache. -/
def cachedOf (cr : CacheRead) : Option CachedData :=
  match cr with
  | CacheRead.readFailed => none
  | CacheRead.readOk c => c

/-- The user-visible provenance of one sync cycle (the `loadingStatus`
strings, abstracted to their meaning). -/
inductive SyncStatus where
  | serverLoaded
  | cacheAfterError
  | failedNoCache
  | cacheServed (stale : Bool)
  | offlineNoCache
deriving DecidableEq

/-- Result of one sync cycle: the view exposed to the UI (if any), the
envelope written to the persistent cache (if any), and the status. -/
structure SyncOutcome where
  view : Option ViewData
  cacheWrite : Option CachedData
  status : SyncStatus
deriving DecidableEq

/-- Staleness threshold (Handbook.tsx line 47). -/
def MAX_CACHE_AGE_HOURS : Nat := 12

/-- Sortedness with respect to a comparator key: every earlier element's key
is `kle`-below every later one's. -/
def SortedK {α κ : Type} (key : α → κ) (kle : κ → κ → Bool) (l : List α) : Prop :=
  l.Pairwise (fun a b => kle (key a) (key b) = true)

/-- The department keys of an employee list in first-occurrence order (the
key order of the object built by the grouping `reduce`). -/
def fkeys (l : List OfficeEmployee) : List String :=
  dd (l.map deptKey)

/-- The association-list entry the grouping produces for department `d` of
the employee list `l`. -/
def entryFn (l : List OfficeEmployee) (d : String) : String × DeptGroup :=
  (d, mkGroup (l.filter (fun e => decide (deptKey e = d))))

/-- Closed form of the grouping fold: one entry per department in
first-occurrence order, each carrying that department's subsequence. -/
def charOf (l : List OfficeEmployee) : List (String × DeptGroup) :=
  (fkeys l).map (entryFn l)

/-- `fetchData` (Handbook.tsx lines 128-204) as a pure function of its
environment: the forced-refresh flag, the cache read outcome, the
`navigator.onLine` flag, the fetch result (`none` models a network error, a
non-OK HTTP status, a non-success envelope or a timeout) and the current
time in milliseconds.  `differenceInHours` is the truncated quotient of the
elapsed milliseconds by one hour. -/
def fetchData (forceUpdate : Bool) (cacheRead : CacheRead) (online : Bool)
    (fetchResult : Option HandbookData) (now : Nat) : SyncOutcome :=
  let cached := cachedOf cacheRead
  if online || forceUpdate then
    match fetchResult with
    | some payload =>
      let newData : ViewData :=
        { office := groupAndSortOfficeData payload.office
          cabinets := sortCabinetData payload.cabinets }
      { view := some newData
        cacheWrite := some { data := newData, timestamp := payload.timestamp, fetchTime := now }
        status := SyncStatus.serverLoaded }
    | none =>
      match cached with
      | some c =>
        { view := some c.data, cacheWrite := none, status := SyncStatus.cacheAfterError }
      | none =>
        { view := none, cacheWrite := none, status := SyncStatus.failedNoCache }
  else
    match cached with
    | some c =>
      let cacheAgeHours := (now - c.fetchTime) / 3600000
      { view := some c.data
        cacheWrite := none
        status := SyncStatus.cacheServed (decide (MAX_CACHE_AGE_HOURS ≤ cacheAgeHours)) }
    | none =>
      { view := none, cacheWrite := none, status := SyncStatus.offlineNoCache }

/-- The string contains no `<`, hence no HTML tag and no attribute (both
can only occur inside a `<`...`>` span). -/
def noTagChar (s : String) : Prop :=
  '<' ∉ s.data

/-- The string has no leading and no trailing whitespace. -/
def trimmedStr (s : String) : Prop :=
  (s.data.head?.all fun c => !isWsChar c) = true ∧
  (s.data.getLast?.all fun c => !isWsChar c) = true

/-- A sanitized text field: markup-free and trimmed. -/
def cleanStr (s : String) : Prop :=
  noTagChar s ∧ trimmedStr s

/-! ### Concrete fixtures used by witnesses and counterexamples -/

/-- A concrete Person record. -/
def wEmpA : OfficeEmployee :=
  { department := "D", sortPriority := 1, position := "P1", fullName := "a",
    internalNumber := "10", generalNumber := "100" }

/-- A Person distinct from `wEmpA` but with the same sort key
(same priority, same lowercased name). -/
def wEmpB : OfficeEmployee :=
  { department := "D", sortPriority := 1, position := "P2", fullName := "a",
    internalNumber := "11", generalNumber := "100" }

/-- A Person with a sort key distinct from `wEmpA`'s. -/
def wEmpC : OfficeEmployee :=
  { department := "E", sortPriority := 2, position := "P3", fullName := "b",
    internalNumber := "12", generalNumber := "200" }

/-- A people row whose sort-priority cell does not parse as an integer. -/
def wRowPrioBad : RawRow :=
  [some "D", some "abc", some "Pos", some "b", some "1", some "9"]

/-- A people row with the explicit sort priority 100. -/
def wRowPrioHigh : RawRow :=
  [some "D", some "100", some "Pos", some "a", some "2", some "9"]

/-- A row in which every cell is empty or absent. -/
def wRowBlank : RawRow :=
  [some "", none, some ""]

/-- A people row with markup and stray whitespace in its text cells. -/
def wRowMarkup : RawRow :=
  [some " <b>IT</b> ", some " 1 ", some " <i>Dev</i> ",
   some "  Jane <a href=x>Doe</a> ", some "10<br>", none]

/-- The record `wRowMarkup` normalizes to. -/
def wEmpMarkup : OfficeEmployee :=
  { department := "IT", sortPriority := 1, position := "Dev",
    fullName := "Jane Doe", internalNumber := "10", generalNumber := "" }

/-- The record `wRowPrioBad` normalizes to (defaulted priority). -/
def wEmpBadPrio : OfficeEmployee :=
  { department := "D", sortPriority := 99, position := "Pos", fullName := "b",
    internalNumber := "1", generalNumber := "9" }

/-- A file observation whose parse throws. -/
def wFileFail : FileRead :=
  { mtime := 5, content := none }

/-- A file observation that parses, containing one header row and one
people row. -/
def wFileOk : FileRead :=
  { mtime := 7,
    content := some { officeSheet := some [[], wRowPrioBad], cabinetsSheet := none } }

/-- A concrete snapshot. -/
def wSnap : HandbookData :=
  { timestamp := 3, office := [wEmpA], cabinets := [] }

/-- A server cache state populated with `wSnap` under key 3. -/
def wCacheSt : ServerCache :=
  { cachedData := some wSnap, lastModifiedTime := 3 }

/-- A concrete client view. -/
def wView : ViewData :=
  { office := [("D", { employees := [wEmpA], generalNumber := "100" })], cabinets := [] }

/-- A concrete Cached Envelope. -/
def wCached : CachedData :=
  { data := wView, timestamp := 3, fetchTime := 1000 }

/-! ### Generic facts about the stable sort `sortS` -/

section SortFramework

variable {α κ : Type} [DecidableEq κ] (key : α → κ) (kle : κ → κ → Bool)

theorem sortedK_nil : SortedK key kle [] :=
  List.Pairwise.nil

theorem sortedK_cons {x : α} {l : List α} :
    SortedK key kle (x :: l) ↔
      (∀ b ∈ l, kle (key x) (key b) = true) ∧ SortedK key kle l := by
  unfold SortedK
  exact List.pairwise_cons

theorem insertS_perm (x : α) (l : List α) :
    (insertS key kle x l).Perm (x :: l) := by
  induction l with
  | nil => exact List.Perm.refl _
  | cons y ys ih =>
    unfold insertS
    by_cases h : kle (key x) (key y) = true
    · rw [if_pos h]
    · rw [if_neg h]
      exact (ih.cons y).trans (List.Perm.swap x y ys)

theorem sortS_perm (l : List α) : (sortS key kle l).Perm l := by
  induction l with
  | nil => exact List.Perm.refl _
  | cons x xs ih =>
    exact (insertS_perm key kle x (sortS key kle xs)).trans (ih.cons x)

theorem mem_sortS {a : α} {l : List α} : a ∈ sortS key kle l ↔ a ∈ l :=
  (sortS_perm key kle l).mem_iff

theorem mem_insertS {a x : α} {l : List α} :
    a ∈ insertS key kle x l ↔ a = x ∨ a ∈ l := by
  rw [(insertS_perm key kle x l).mem_iff, List.mem_cons]

theorem insertS_front {x : α} {l : List α}
    (h : ∀ z ∈ l, kle (key x) (key z) = true) :
    insertS key kle x l = x :: l := by
  cases l with
  | nil => rfl
  | cons z zs =>
    unfold insertS
    rw [if_pos (h z (List.mem_cons_self z zs))]

theorem insertS_sorted
    (htot : ∀ a b, kle a b = true ∨ kle b a = true)
    (htrans : ∀ a b c, kle a b = true → kle b c = true → kle a c = true)
    (x : α) (l : List α) (hl : SortedK key kle l) :
    SortedK key kle (insertS key kle x l) := by
  induction l with
  | nil =>
    unfold insertS SortedK
    exact List.pairwise_singleton _ x
  | cons y ys ih =>
    rw [sortedK_cons] at hl
    unfold insertS
    by_cases h : kle (key x) (key y) = true
    · rw [if_pos h]
      rw [sortedK_cons]
      refine ⟨?_, (sortedK_cons key kle).mpr hl⟩
      intro b hb
      rcases List.mem_cons.mp hb with rfl | hb'
      · exact h
      · exact htrans _ _ _ h (hl.1 b hb')
    · rw [if_neg h]
      rw [sortedK_cons]
      refine ⟨?_, ih hl.2⟩
      intro b hb
      rcases (mem_insertS key kle).mp hb with rfl | hb'
      · rcases htot (key y) (key b) with hh | hh
        · exact hh
        · exact absurd hh h
      · exact hl.1 b hb'

theorem sortS_sorted
    (htot : ∀ a b, kle a b = true ∨ kle b a = true)
    (htrans : ∀ a b c, kle a b = true → kle b c = true → kle a c = true)
    (l : List α) : SortedK key kle (sortS key kle l) := by
  induction l with
  | nil => exact sortedK_nil key kle
  | cons x xs ih => exact insertS_sorted key kle htot htrans x _ ih

theorem sortS_of_sorted {l : List α} (hl : SortedK key kle l) :
    sortS key kle l = l := by
  induction l with
  | nil => rfl
  | cons x xs ih =>
    rw [sortedK_cons] at hl
    show insertS key kle x (sortS key kle xs) = x :: xs
    rw [ih hl.2]
    exact insertS_front key kle hl.1

theorem filter_insertS_neg (p : α → Bool) {x : α} (l : List α)
    (hx : p x = false) :
    (insertS key kle x l).filter p = l.filter p := by
  induction l with
  | nil =>
    unfold insertS
    simp [hx]
  | cons y ys ih =>
    unfold insertS
    by_cases h : kle (key x) (key y) = true
    · rw [if_pos h]
      rw [List.filter_cons_of_neg (by rw [hx]; exact Bool.false_ne_true)]
    · rw [if_neg h]
      by_cases hpy : p y = true
      · rw [List.filter_cons_of_pos hpy, List.filter_cons_of_pos hpy, ih]
      · rw [List.filter_cons_of_neg hpy, List.filter_cons_of_neg hpy, ih]

theorem insertS_cons (x y : α) (ys : List α) :
    insertS key kle x (y :: ys) =
      if kle (key x) (key y) then x :: y :: ys else y :: insertS key kle x ys :=
  rfl

theorem filter_insertS_pos
    (htrans : ∀ a b c, kle a b = true → kle b c = true → kle a c = true)
    (p : α → Bool) {x : α} (l : List α)
    (hl : SortedK key kle l) (hx : p x = true) :
    (insertS key kle x l).filter p = insertS key kle x (l.filter p) := by
  induction l with
  | nil =>
    unfold insertS
    simp [hx]
  | cons y ys ih =>
    rw [sortedK_cons] at hl
    rw [insertS_cons key kle x y ys]
    by_cases h : kle (key x) (key y) = true
    · rw [if_pos h]
      by_cases hpy : p y = true
      · rw [List.filter_cons_of_pos hx, List.filter_cons_of_pos hpy,
          insertS_cons key kle x y (ys.filter p), if_pos h]
      · rw [List.filter_cons_of_pos hx, List.filter_cons_of_neg hpy]
        rw [insertS_front key kle]
        intro z hz
        exact htrans _ _ _ h (hl.1 z (List.mem_of_mem_filter hz))
    · rw [if_neg h]
      by_cases hpy : p y = true
      · rw [List.filter_cons_of_pos hpy, List.filter_cons_of_pos hpy, ih hl.2,
          insertS_cons key kle x y (ys.filter p), if_neg h]
      · rw [List.filter_cons_of_neg hpy, List.filter_cons_of_neg hpy, ih hl.2]

theorem filter_sortS
    (htot : ∀ a b, kle a b = true ∨ kle b a = true)
    (htrans : ∀ a b c, kle a b = true → kle b c = true → kle a c = true)
    (p : α → Bool) (l : List α) :
    (sortS key kle l).filter p = sortS key kle (l.filter p) := by
  induction l with
  | nil => rfl
  | cons x xs ih =>
    show (insertS key kle x (sortS key kle xs)).filter p = sortS key kle ((x :: xs).filter p)
    by_cases hx : p x = true
    · rw [filter_insertS_pos key kle htrans p _ (sortS_sorted key kle htot htrans xs) hx,
        ih, List.filter_cons_of_pos hx]
      rfl
    · rw [filter_insertS_neg key kle p _ (Bool.eq_false_iff.mpr hx), ih,
        List.filter_cons_of_neg hx]

theorem kle_refl (htot : ∀ a b, kle a b = true ∨ kle b a = true) (k : κ) :
    kle k k = true := by
  rcases htot k k with h | h <;> exact h

theorem sorted_filter_class
    (htot : ∀ a b, kle a b = true ∨ kle b a = true)
    (l : List α) (k : κ) :
    SortedK key kle (l.filter (fun a => decide (key a = k))) := by
  unfold SortedK
  refine List.pairwise_of_forall_mem_list ?_
  intro a ha b hb
  have hka : key a = k := of_decide_eq_true (List.mem_filter.mp ha).2
  have hkb : key b = k := of_decide_eq_true (List.mem_filter.mp hb).2
  rw [hka, hkb]
  exact kle_refl kle htot k

theorem sortS_classFilter
    (htot : ∀ a b, kle a b = true ∨ kle b a = true)
    (htrans : ∀ a b c, kle a b = true → kle b c = true → kle a c = true)
    (l : List α) (k : κ) :
    (sortS key kle l).filter (fun a => decide (key a = k)) =
      l.filter (fun a => decide (key a = k)) := by
  rw [filter_sortS key kle htot htrans]
  exact sortS_of_sorted key kle (sorted_filter_class key kle htot l k)

theorem sortS_eq_of_classFilters
    (htot : ∀ a b, kle a b = true ∨ kle b a = true)
    (hanti : ∀ a b, kle a b = true → kle b a = true → a = b)
    (l1 l2 : List α) (h1 : SortedK key kle l1) (h2 : SortedK key kle l2)
    (hf : ∀ k, l1.filter (fun a => decide (key a = k)) =
      l2.filter (fun a => decide (key a = k))) :
    l1 = l2 := by
  induction l1 generalizing l2 with
  | nil =>
    cases l2 with
    | nil => rfl
    | cons b t2 =>
      exfalso
      have hb := (hf (key b)).symm
      rw [List.filter_nil, List.filter_cons_of_pos (by simp)] at hb
      exact List.cons_ne_nil _ _ hb
  | cons a t1 ih =>
    cases l2 with
    | nil =>
      exfalso
      have ha := hf (key a)
      rw [List.filter_nil, List.filter_cons_of_pos (by simp)] at ha
      exact List.cons_ne_nil _ _ ha
    | cons b t2 =>
      rw [sortedK_cons] at h1 h2
      have hamem : a ∈ b :: t2 := by
        refine List.mem_of_mem_filter (p := fun x => decide (key x = key a)) ?_
        rw [← hf (key a), List.filter_cons_of_pos (by simp)]
        exact List.mem_cons_self _ _
      have hbmem : b ∈ a :: t1 := by
        refine List.mem_of_mem_filter (p := fun x => decide (key x = key b)) ?_
        rw [hf (key b), List.filter_cons_of_pos (by simp)]
        exact List.mem_cons_self _ _
      have kab : kle (key a) (key b) = true := by
        rcases List.mem_cons.mp hbmem with h | hmem
        · rw [h]
          exact kle_refl kle htot _
        · exact h1.1 b hmem
      have kba : kle (key b) (key a) = true := by
        rcases List.mem_cons.mp hamem with h | hmem
        · rw [h]
          exact kle_refl kle htot _
        · exact h2.1 a hmem
      have hkey : key a = key b := hanti _ _ kab kba
      have hheads := hf (key a)
      rw [List.filter_cons_of_pos (by simp), List.filter_cons_of_pos (by simp [hkey])]
        at hheads
      injection hheads with hab htails
      subst hab
      have htl : t1 = t2 := by
        refine ih t2 h1.2 h2.2 ?_
        intro k
        by_cases hk : key a = k
        · rw [← hk]
          exact htails
        · have hcf := hf k
          rw [List.filter_cons_of_neg (by simp [hk]),
            List.filter_cons_of_neg (by simp [hk])] at hcf
          exact hcf
      rw [htl]

theorem insertS_map {β : Type} (f : β → α) (keyb : β → κ)
    (hk : ∀ b, key (f b) = keyb b) (x : β) (l : List β) :
    insertS key kle (f x) (l.map f) = (insertS keyb kle x l).map f := by
  induction l with
  | nil => rfl
  | cons y ys ih =>
    rw [List.map_cons, insertS_cons key kle (f x) (f y), insertS_cons keyb kle x y,
      hk x, hk y]
    by_cases h : kle (keyb x) (keyb y) = true
    · rw [if_pos h, if_pos h, List.map_cons, List.map_cons]
    · rw [if_neg h, if_neg h, List.map_cons, ih]

theorem sortS_map {β : Type} (f : β → α) (keyb : β → κ)
    (hk : ∀ b, key (f b) = keyb b) (l : List β) :
    sortS key kle (l.map f) = (sortS keyb kle l).map f := by
  induction l with
  | nil => rfl
  | cons x xs ih =>
    rw [List.map_cons]
    show insertS key kle (f x) (sortS key kle (xs.map f)) = _
    rw [ih]
    exact insertS_map key kle f keyb hk x (sortS keyb kle xs)

end SortFramework

/-! ### Facts about first-occurrence deduplication `dd` -/

section DedupFacts

variable {κ : Type} [DecidableEq κ]

theorem dd_cons (k : κ) (r : List κ) :
    dd (k :: r) = k :: (dd r).filter (fun x => !(decide (x = k))) :=
  rfl

theorem mem_dd {l : List κ} {x : κ} : x ∈ dd l ↔ x ∈ l := by
  induction l with
  | nil => exact Iff.rfl
  | cons k r ih =>
    rw [dd_cons]
    constructor
    · intro h
      rcases List.mem_cons.mp h with h' | h'
      · rw [h']
        exact List.mem_cons_self _ _
      · exact List.mem_cons_of_mem _ (ih.mp (List.mem_of_mem_filter h'))
    · intro h
      rcases List.mem_cons.mp h with h' | h'
      · rw [h']
        exact List.mem_cons_self _ _
      · by_cases hx : x = k
        · rw [hx]
          exact List.mem_cons_self _ _
        · exact List.mem_cons_of_mem _
            (List.mem_filter.mpr ⟨ih.mpr h', by simp [hx]⟩)

theorem dd_nodup (l : List κ) : (dd l).Nodup := by
  induction l with
  | nil => exact List.nodup_nil
  | cons k r ih =>
    rw [dd_cons, List.nodup_cons]
    constructor
    · intro hmem
      have h2 := (List.mem_filter.mp hmem).2
      simp at h2
    · exact List.Nodup.filter _ ih

theorem dd_append (A B : List κ) :
    dd (A ++ B) = dd A ++ (dd B).filter (fun x => !(decide (x ∈ dd A))) := by
  induction A with
  | nil =>
    rw [show dd ([] ++ B) = dd B from rfl, show dd ([] : List κ) = [] from rfl,
      List.nil_append]
    symm
    refine List.filter_eq_self.mpr ?_
    intro a ha
    simp
  | cons a A ih =>
    rw [List.cons_append, dd_cons, ih, List.filter_append, dd_cons, List.cons_append]
    congr 1
    congr 1
    rw [List.filter_filter]
    refine List.filter_congr ?_
    intro x hx
    by_cases hxa : x = a
    · simp [hxa]
    · by_cases hxA : x ∈ dd A
      · simp [hxa, hxA]
      · simp [hxa, hxA]

theorem dd_filter (q : κ → Bool) (l : List κ) :
    (dd l).filter q = dd (l.filter q) := by
  induction l with
  | nil => rfl
  | cons k r ih =>
    rw [dd_cons]
    by_cases hq : q k = true
    · rw [List.filter_cons_of_pos hq, List.filter_cons_of_pos hq, dd_cons]
      congr 1
      rw [List.filter_filter, ← ih, List.filter_filter]
      refine List.filter_congr ?_
      intro x hx
      exact Bool.and_comm _ _
    · rw [List.filter_cons_of_neg hq, List.filter_cons_of_neg hq, ← ih,
        List.filter_filter]
      refine List.filter_congr ?_
      intro x hx
      by_cases hqx : q x = true
      · have hxk : ¬ (x = k) := fun h => hq (h ▸ hqx)
        simp [hqx, hxk]
      · simp [hqx]

end DedupFacts

/-! ### The concrete comparator orders are total preorders with antisymmetry -/

theorem leL_cons (x y : Char) (xs ys : List Char) :
    leL (x :: xs) (y :: ys) = if x = y then leL xs ys else decide (x < y) :=
  rfl

theorem leL_total : ∀ a b : List Char, leL a b = true ∨ leL b a = true := by
  intro a
  induction a with
  | nil => intro b; exact Or.inl rfl
  | cons x xs ih =>
    intro b
    cases b with
    | nil => exact Or.inr rfl
    | cons y ys =>
      rw [leL_cons, leL_cons]
      by_cases hxy : x = y
      · rw [if_pos hxy, if_pos hxy.symm]
        exact ih ys
      · rw [if_neg hxy, if_neg (fun h => hxy h.symm)]
        rcases lt_trichotomy x y with h | h | h
        · exact Or.inl (decide_eq_true h)
        · exact absurd h hxy
        · exact Or.inr (decide_eq_true h)

theorem leL_trans : ∀ a b c : List Char,
    leL a b = true → leL b c = true → leL a c = true := by
  intro a
  induction a with
  | nil => intro b c _ _; rfl
  | cons x xs ih =>
    intro b c hab hbc
    cases b with
    | nil => exact absurd hab (by rw [show leL (x :: xs) [] = false from rfl]; exact Bool.false_ne_true)
    | cons y ys =>
      cases c with
      | nil => exact absurd hbc (by rw [show leL (y :: ys) [] = false from rfl]; exact Bool.false_ne_true)
      | cons z zs =>
        rw [leL_cons] at hab hbc ⊢
        by_cases hxy : x = y
        · subst hxy
          rw [if_pos rfl] at hab
          by_cases hxz : x = z
          · subst hxz
            rw [if_pos rfl] at hbc ⊢
            exact ih ys zs hab hbc
          · rw [if_neg hxz] at hbc ⊢
            exact hbc
        · rw [if_neg hxy] at hab
          by_cases hyz : y = z
          · subst hyz
            rw [if_neg hxy]
            exact hab
          · rw [if_neg hyz] at hbc
            by_cases hxz : x = z
            · exact absurd (lt_trans (of_decide_eq_true hab) (of_decide_eq_true hbc))
                (hxz ▸ lt_irrefl x)
            · rw [if_neg hxz]
              exact decide_eq_true (lt_trans (of_decide_eq_true hab) (of_decide_eq_true hbc))

theorem leL_antisymm : ∀ a b : List Char,
    leL a b = true → leL b a = true → a = b := by
  intro a
  induction a with
  | nil =>
    intro b hab hba
    cases b with
    | nil => rfl
    | cons y ys => exact absurd hba (by rw [show leL (y :: ys) [] = false from rfl]; exact Bool.false_ne_true)
  | cons x xs ih =>
    intro b hab hba
    cases b with
    | nil => exact absurd hab (by rw [show leL (x :: xs) [] = false from rfl]; exact Bool.false_ne_true)
    | cons y ys =>
      rw [leL_cons] at hab hba
      by_cases hxy : x = y
      · subst hxy
        rw [if_pos rfl] at hab hba
        rw [ih ys hab hba]
      · rw [if_neg hxy] at hab
        rw [if_neg (fun h => hxy h.symm)] at hba
        exact absurd (lt_trans (of_decide_eq_true hab) (of_decide_eq_true hba))
          (lt_irrefl x)

theorem pkLe_total : ∀ a b : Int × List Char, pkLe a b = true ∨ pkLe b a = true := by
  intro a b
  unfold pkLe
  by_cases h : a.1 = b.1
  · rw [if_pos h, if_pos h.symm]
    exact leL_total a.2 b.2
  · rw [if_neg h, if_neg (fun hh => h hh.symm)]
    rcases lt_trichotomy a.1 b.1 with hh | hh | hh
    · exact Or.inl (decide_eq_true hh)
    · exact absurd hh h
    · exact Or.inr (decide_eq_true hh)

theorem pkLe_trans : ∀ a b c : Int × List Char,
    pkLe a b = true → pkLe b c = true → pkLe a c = true := by
  intro a b c hab hbc
  unfold pkLe at hab hbc ⊢
  by_cases h1 : a.1 = b.1
  · rw [if_pos h1] at hab
    by_cases h2 : b.1 = c.1
    · rw [if_pos h2] at hbc
      rw [if_pos (h1.trans h2)]
      exact leL_trans _ _ _ hab hbc
    · rw [if_neg h2] at hbc
      have hlt : a.1 < c.1 := lt_of_le_of_lt (le_of_eq h1) (of_decide_eq_true hbc)
      rw [if_neg (ne_of_lt hlt)]
      exact decide_eq_true hlt
  · rw [if_neg h1] at hab
    by_cases h2 : b.1 = c.1
    · rw [if_pos h2] at hbc
      have hlt : a.1 < c.1 := lt_of_lt_of_le (of_decide_eq_true hab) (le_of_eq h2)
      rw [if_neg (ne_of_lt hlt)]
      exact decide_eq_true hlt
    · rw [if_neg h2] at hbc
      have hlt : a.1 < c.1 :=
        lt_trans (of_decide_eq_true hab) (of_decide_eq_true hbc)
      rw [if_neg (ne_of_lt hlt)]
      exact decide_eq_true hlt

theorem pkLe_antisymm : ∀ a b : Int × List Char,
    pkLe a b = true → pkLe b a = true → a = b := by
  intro a b hab hba
  unfold pkLe at hab hba
  by_cases h : a.1 = b.1
  · rw [if_pos h] at hab
    rw [if_pos h.symm] at hba
    have h2 := leL_antisymm a.2 b.2 hab hba
    cases a
    cases b
    simp only at h h2
    rw [h, h2]
  · rw [if_neg h] at hab
    rw [if_neg (fun hh => h hh.symm)] at hba
    exact absurd (lt_trans (of_decide_eq_true hab) (of_decide_eq_true hba))
      (lt_irrefl _)

/-! ### Closed form of the grouping fold -/

theorem fkeys_mem {l : List OfficeEmployee} {d : String} :
    d ∈ fkeys l ↔ ∃ e ∈ l, deptKey e = d := by
  unfold fkeys
  rw [mem_dd]
  exact List.mem_map

theorem fkeys_mem_filter {l : List OfficeEmployee} {d : String} :
    d ∈ fkeys l ↔ l.filter (fun e => decide (deptKey e = d)) ≠ [] := by
  rw [fkeys_mem]
  constructor
  · rintro ⟨e, he, hd⟩ hnil
    rw [List.filter_eq_nil_iff] at hnil
    exact hnil e he (by simp [hd])
  · intro h
    cases hf : l.filter (fun e => decide (deptKey e = d)) with
    | nil => exact absurd hf h
    | cons e es =>
      have he : e ∈ l.filter (fun x => decide (deptKey x = d)) := by
        rw [hf]
        exact List.mem_cons_self _ _
      exact ⟨e, (List.mem_filter.mp he).1, of_decide_eq_true (List.mem_filter.mp he).2⟩

theorem any_map_fn {α β : Type} (f : α → β) (l : List α) (p : β → Bool) :
    (l.map f).any p = l.any (fun a => p (f a)) := by
  induction l with
  | nil => rfl
  | cons a t ih => rw [List.map_cons, List.any_cons, List.any_cons, ih]

theorem anyKey_eq (L : List String) (d : String) :
    (L.any fun k => decide (k = d)) = decide (d ∈ L) := by
  induction L with
  | nil => rfl
  | cons a L ih =>
    rw [List.any_cons, ih]
    by_cases h : a = d
    · simp [h]
    · have h2 : ¬ d = a := fun hh => h hh.symm
      simp [h, h2]

theorem entryFn_eq (l : List OfficeEmployee) (d : String) :
    entryFn l d = (d, mkGroup (l.filter (fun e => decide (deptKey e = d)))) :=
  rfl

theorem any_charOf (p : List OfficeEmployee) (d : String) :
    ((charOf p).any fun q => decide (q.1 = d)) = decide (d ∈ fkeys p) := by
  unfold charOf
  rw [any_map_fn]
  exact anyKey_eq _ d

theorem fkeys_append_one (p : List OfficeEmployee) (e : OfficeEmployee) :
    fkeys (p ++ [e]) =
      fkeys p ++ if deptKey e ∈ fkeys p then [] else [deptKey e] := by
  unfold fkeys
  rw [List.map_append, dd_append]
  rw [show List.map deptKey [e] = [deptKey e] from rfl]
  rw [show dd [deptKey e] = [deptKey e] from rfl]
  by_cases h : deptKey e ∈ dd (p.map deptKey)
  · rw [if_pos h, List.filter_cons_of_neg (by simp [h]), List.filter_nil]
  · rw [if_neg h, List.filter_cons_of_pos (by simp [h]), List.filter_nil]

theorem filter_dept_append_one (p : List OfficeEmployee) (e : OfficeEmployee) (d : String) :
    (p ++ [e]).filter (fun x => decide (deptKey x = d)) =
      p.filter (fun x => decide (deptKey x = d)) ++
        if deptKey e = d then [e] else [] := by
  rw [List.filter_append]
  congr 1
  by_cases h : deptKey e = d
  · rw [if_pos h, List.filter_cons_of_pos (by simp [h]), List.filter_nil]
  · rw [if_neg h, List.filter_cons_of_neg (by simp [h]), List.filter_nil]

theorem mkGroup_append_of_ne_nil {es : List OfficeEmployee} (e : OfficeEmployee)
    (h : es ≠ []) :
    mkGroup (es ++ [e]) =
      { employees := es ++ [e], generalNumber := (mkGroup es).generalNumber } := by
  cases es with
  | nil => exact absurd rfl h
  | cons e0 es' => rfl

theorem addEmp_charOf (p : List OfficeEmployee) (e : OfficeEmployee) :
    addEmp (charOf p) e = charOf (p ++ [e]) := by
  unfold addEmp
  by_cases hm : deptKey e ∈ fkeys p
  · have hany : ((charOf p).any fun q => decide (q.1 = deptKey e)) = true := by
      rw [any_charOf]
      exact decide_eq_true hm
    rw [if_pos hany]
    unfold charOf
    rw [fkeys_append_one, if_pos hm, List.append_nil, List.map_map]
    refine List.map_congr_left ?_
    intro d hd
    show (if d = deptKey e then
        (d, { employees :=
                (mkGroup (p.filter (fun x => decide (deptKey x = d)))).employees ++ [e],
              generalNumber :=
                (mkGroup (p.filter (fun x => decide (deptKey x = d)))).generalNumber })
      else (d, mkGroup (p.filter (fun x => decide (deptKey x = d))))) =
      entryFn (p ++ [e]) d
    by_cases hde : d = deptKey e
    · rw [if_pos hde]
      have hne : p.filter (fun x => decide (deptKey x = d)) ≠ [] := by
        refine fkeys_mem_filter.mp ?_
        rw [hde]
        exact hm
      rw [entryFn_eq, filter_dept_append_one, if_pos hde.symm,
        mkGroup_append_of_ne_nil e hne]
      rfl
    · rw [if_neg hde, entryFn_eq, filter_dept_append_one,
        if_neg (fun hh => hde hh.symm), List.append_nil]
  · have hany : ((charOf p).any fun q => decide (q.1 = deptKey e)) = false := by
      rw [any_charOf]
      exact decide_eq_false hm
    rw [if_neg (by rw [hany]; exact Bool.false_ne_true)]
    unfold charOf
    rw [fkeys_append_one, if_neg hm, List.map_append]
    have hfe : (p ++ [e]).filter (fun x => decide (deptKey x = deptKey e)) = [e] := by
      rw [filter_dept_append_one, if_pos rfl]
      have hnil : p.filter (fun x => decide (deptKey x = deptKey e)) = [] := by
        by_contra hne
        exact hm (fkeys_mem_filter.mpr hne)
      rw [hnil, List.nil_append]
    congr 1
    · refine (List.map_congr_left ?_).symm
      intro d hd
      have hde : deptKey e ≠ d := fun h => hm (h ▸ hd)
      rw [entryFn_eq, entryFn_eq, filter_dept_append_one, if_neg hde, List.append_nil]
    · rw [show List.map (entryFn (p ++ [e])) [deptKey e] =
        [entryFn (p ++ [e]) (deptKey e)] from rfl]
      rw [entryFn_eq, hfe]
      rfl

theorem groupPairs_charOf (l : List OfficeEmployee) : groupPairs l = charOf l := by
  induction l using List.reverseRecOn with
  | nil => rfl
  | append_singleton p e ih =>
    unfold groupPairs
    rw [List.foldl_append]
    show addEmp (groupPairs p) e = _
    rw [ih]
    exact addEmp_charOf p e

theorem groupAndSort_char (X : List OfficeEmployee) :
    groupAndSortOfficeData X =
      (sortS dkLow leL (fkeys (sortS empKey pkLe X))).map
        (entryFn (sortS empKey pkLe X)) := by
  unfold groupAndSortOfficeData
  rw [groupPairs_charOf]
  unfold charOf
  exact sortS_map (fun p => dkLow p.1) leL (entryFn _) dkLow (fun d => rfl) _

/-! ### Sortedness of the grouped output -/

theorem pkLe_emp_iff (a b : OfficeEmployee) :
    pkLe (empKey a) (empKey b) = true ↔
      (a.sortPriority < b.sortPriority ∨
        (a.sortPriority = b.sortPriority ∧
          leL (lowerStr a.fullName) (lowerStr b.fullName) = true)) := by
  show (if a.sortPriority = b.sortPriority
      then leL (lowerStr a.fullName) (lowerStr b.fullName)
      else decide (a.sortPriority < b.sortPriority)) = true ↔ _
  by_cases h : a.sortPriority = b.sortPriority
  · rw [if_pos h]
    constructor
    · intro hn
      exact Or.inr ⟨h, hn⟩
    · rintro (hlt | ⟨_, hn⟩)
      · exact absurd hlt (h ▸ lt_irrefl _)
      · exact hn
  · rw [if_neg h]
    constructor
    · intro hd
      exact Or.inl (of_decide_eq_true hd)
    · rintro (hlt | ⟨heq, _⟩)
      · exact decide_eq_true hlt
      · exact absurd heq h

theorem group_employees_filter {X : List OfficeEmployee} {q : String × DeptGroup}
    (hq : q ∈ groupAndSortOfficeData X) :
    q.2.employees =
      (sortS empKey pkLe X).filter (fun e => decide (deptKey e = q.1)) := by
  rw [groupAndSort_char] at hq
  rcases List.mem_map.mp hq with ⟨d, hd, hentry⟩
  rw [← hentry]
  rfl

theorem group_employees_sorted (X : List OfficeEmployee) :
    ∀ q ∈ groupAndSortOfficeData X,
      q.2.employees.Pairwise (fun a b => pkLe (empKey a) (empKey b) = true) := by
  intro q hq
  rw [group_employees_filter hq]
  refine List.Pairwise.sublist (List.filter_sublist _) ?_
  exact sortS_sorted empKey pkLe pkLe_total pkLe_trans X

theorem group_keys_sorted (X : List OfficeEmployee) :
    (groupAndSortOfficeData X).Pairwise
      (fun p q => leL (lowerStr p.1) (lowerStr q.1) = true) :=
  sortS_sorted (fun p : String × DeptGroup => dkLow p.1) leL leL_total leL_trans
    (groupPairs (sortS empKey pkLe X))

/-! ### Substring facts for the filter -/

theorem startsW_iff : ∀ hay needle : List Char,
    startsW hay needle = true ↔ ∃ rest, hay = needle ++ rest := by
  intro hay needle
  induction needle generalizing hay with
  | nil =>
    constructor
    · intro _
      exact ⟨hay, rfl⟩
    · intro _
      cases hay <;> rfl
  | cons n ns ih =>
    cases hay with
    | nil =>
      constructor
      · intro h
        exact absurd h (by rw [show startsW [] (n :: ns) = false from rfl]; exact Bool.false_ne_true)
      · rintro ⟨rest, h⟩
        exact List.noConfusion h
    | cons c t =>
      show (decide (c = n) && startsW t ns) = true ↔ _
      rw [Bool.and_eq_true]
      constructor
      · rintro ⟨hd, hts⟩
        rcases (ih t).mp hts with ⟨rest, hr⟩
        refine ⟨rest, ?_⟩
        rw [of_decide_eq_true hd, hr]
        rfl
      · rintro ⟨rest, hr⟩
        injection hr with h1 h2
        exact ⟨decide_eq_true h1, (ih t).mpr ⟨rest, h2⟩⟩

theorem hasSub_iff : ∀ hay needle : List Char,
    hasSub hay needle = true ↔ ∃ pre rest, hay = pre ++ needle ++ rest := by
  intro hay
  induction hay with
  | nil =>
    intro needle
    show (startsW [] needle || false) = true ↔ _
    rw [Bool.or_false, startsW_iff]
    constructor
    · rintro ⟨rest, hr⟩
      exact ⟨[], rest, by rw [List.nil_append]; exact hr⟩
    · rintro ⟨pre, rest, hr⟩
      have h0 := hr.symm
      rcases List.append_eq_nil.mp h0 with ⟨h1, h2⟩
      rcases List.append_eq_nil.mp h1 with ⟨h3, h4⟩
      exact ⟨rest, by rw [h4, h2, List.nil_append]⟩
  | cons c t ih =>
    intro needle
    show (startsW (c :: t) needle || hasSub t needle) = true ↔ _
    rw [Bool.or_eq_true, startsW_iff, ih]
    constructor
    · rintro (⟨rest, hr⟩ | ⟨pre, rest, hr⟩)
      · exact ⟨[], rest, by rw [List.nil_append]; exact hr⟩
      · refine ⟨c :: pre, rest, ?_⟩
        rw [hr]
        rfl
    · rintro ⟨pre, rest, hr⟩
      cases pre with
      | nil =>
        left
        rw [List.nil_append] at hr
        exact ⟨rest, hr⟩
      | cons p ps =>
        right
        injection hr with h1 h2
        exact ⟨ps, rest, h2⟩

theorem hasSub_refl (l : List Char) : hasSub l l = true :=
  (hasSub_iff l l).mpr ⟨[], [], by simp⟩

theorem hasSub_empty (hay : List Char) : hasSub hay [] = true :=
  (hasSub_iff hay []).mpr ⟨[], hay, by simp⟩

theorem hasSub_trans {a b c : List Char}
    (h1 : hasSub a b = true) (h2 : hasSub b c = true) : hasSub a c = true := by
  rcases (hasSub_iff a b).mp h1 with ⟨p1, r1, e1⟩
  rcases (hasSub_iff b c).mp h2 with ⟨p2, r2, e2⟩
  refine (hasSub_iff a c).mpr ⟨p1 ++ p2, r2 ++ r1, ?_⟩
  rw [e1, e2]
  simp [List.append_assoc]

theorem hasSub_map (f : Char → Char) {a b : List Char}
    (h : hasSub a b = true) : hasSub (a.map f) (b.map f) = true := by
  rcases (hasSub_iff a b).mp h with ⟨p, r, e⟩
  refine (hasSub_iff _ _).mpr ⟨p.map f, r.map f, ?_⟩
  rw [e]
  simp

theorem lowerStr_sub {q1 q2 : String} (h : hasSub q2.data q1.data = true) :
    hasSub (lowerStr q2) (lowerStr q1) = true :=
  hasSub_map Char.toLower h

/-- Membership in a `filterData` result, for a non-empty field set. -/
theorem mem_filterData {α : Type} (items : List α) (keys : List (α → String))
    (hk : keys ≠ []) (q : String) (r : α) :
    r ∈ filterData items q keys ↔
      r ∈ items ∧ (keys.any fun k => hasSub (lowerStr (k r)) (lowerStr q)) = true := by
  unfold filterData
  by_cases hq : q.isEmpty = true
  · rw [if_pos hq]
    have hqe : q = "" := (String.isEmpty_iff q).mp hq
    subst hqe
    have hany : (keys.any fun k => hasSub (lowerStr (k r)) (lowerStr "")) = true := by
      cases keys with
      | nil => exact absurd rfl hk
      | cons k0 ks =>
        rw [List.any_cons, show lowerStr "" = [] from rfl, hasSub_empty, Bool.true_or]
    rw [hany]
    simp
  · rw [if_neg hq]
    exact List.mem_filter

/-- C6: the empty query is the identity filter; the filter is antitone in
the query under the substring order (a record kept for the wider query `q2`
is kept for any query `q1` occurring inside `q2`); and a record is kept
exactly when some field of the given non-empty field set, lowercased,
contains the lowercased query as a substring. -/
theorem claim_C6 {α : Type} (items : List α) (keys : List (α → String))
    (q1 q2 : String) (hsub : hasSub q2.data q1.data = true) (hk : keys ≠ []) :
    (filterData items "" keys = items) ∧
    (∀ r, r ∈ filterData items q2 keys → r ∈ filterData items q1 keys) ∧
    (∀ (q : String) (r : α), r ∈ filterData items q keys ↔
      r ∈ items ∧ (keys.any fun k => hasSub (lowerStr (k r)) (lowerStr q)) = true) := by
  refine ⟨?_, ?_, mem_filterData items keys hk⟩
  · unfold filterData
    rw [if_pos (show ("" : String).isEmpty = true from rfl)]
  · intro r hr
    rcases (mem_filterData items keys hk q2 r).mp hr with ⟨hmem, hany⟩
    refine (mem_filterData items keys hk q1 r).mpr ⟨hmem, ?_⟩
    rcases List.any_eq_true.mp hany with ⟨k, hkmem, hks⟩
    exact List.any_eq_true.mpr
      ⟨k, hkmem, hasSub_trans hks (lowerStr_sub hsub)⟩

/-- Witness for C6 at a concrete collection, field set and query pair. -/
theorem claim_C6_witness :
    filterData ["Alpha", "beta"] "" [fun s : String => s] = ["Alpha", "beta"] :=
  (claim_C6 ["Alpha", "beta"] [fun s : String => s] "a" "al" (by decide)
    (by intro h; exact List.noConfusion h)).1

/-! ### Sync-cycle error handling and staleness -/

/-- C7: a cache-read failure is treated exactly as an absent cache and never
aborts the cycle; on fetch failure with a Cached Envelope the cycle serves
the envelope's stored view under a served-from-cache status; on fetch
failure with no envelope it reports unavailability with no data; and a cycle
whose fetch fails never writes the persistent cache. -/
theorem claim_C7 :
    (∀ (force online : Bool) (fetchResult : Option HandbookData) (now : Nat),
      fetchData force CacheRead.readFailed online fetchResult now =
        fetchData force (CacheRead.readOk none) online fetchResult now) ∧
    (∀ (force online : Bool) (c : CachedData) (now : Nat),
      (online || force) = true →
      fetchData force (CacheRead.readOk (some c)) online none now =
        { view := some c.data, cacheWrite := none,
          status := SyncStatus.cacheAfterError }) ∧
    (∀ (force online : Bool) (now : Nat),
      (online || force) = true →
      fetchData force (CacheRead.readOk none) online none now =
        { view := none, cacheWrite := none, status := SyncStatus.failedNoCache }) ∧
    (∀ (force : Bool) (cr : CacheRead) (online : Bool) (now : Nat),
      (fetchData force cr online none now).cacheWrite = none) := by
  refine ⟨?_, ?_, ?_, ?_⟩
  · intro force online fetchResult now
    rfl
  · intro force online c now h
    unfold fetchData
    rw [if_pos h]
    rfl
  · intro force online now h
    unfold fetchData
    rw [if_pos h]
    rfl
  · intro force cr online now
    unfold fetchData
    by_cases h : (online || force) = true
    · rw [if_pos h]
      cases cr with
      | readFailed => rfl
      | readOk c => cases c <;> rfl
    · rw [if_neg h]
      cases cr with
      | readFailed => rfl
      | readOk c => cases c <;> rfl

/-- Witness for C7: a failing fetch with a populated envelope at concrete
inputs serves the envelope from cache. -/
theorem claim_C7_witness :
    fetchData false (CacheRead.readOk (some wCached)) true none 5000 =
      { view := some wCached.data, cacheWrite := none,
        status := SyncStatus.cacheAfterError } :=
  claim_C7.2.1 false true wCached 5000 rfl

/-- C8: offline with no forced refresh, an existing envelope is always
served whatever its age; the status carries the stale flag exactly when the
elapsed time since the envelope's fetch time reaches
`MAX_CACHE_AGE_HOURS` hours, and the fresh flag exactly when it does not —
the served data is the same either way. -/
theorem claim_C8 (cr : CacheRead) (c : CachedData)
    (fetchResult : Option HandbookData) (now : Nat)
    (hcr : cachedOf cr = some c) (ht : c.fetchTime ≤ now) :
    (fetchData false cr false fetchResult now).view = some c.data ∧
    ((fetchData false cr false fetchResult now).status =
        SyncStatus.cacheServed true ↔
      MAX_CACHE_AGE_HOURS * 3600000 ≤ now - c.fetchTime) ∧
    ((fetchData false cr false fetchResult now).status =
        SyncStatus.cacheServed false ↔
      now - c.fetchTime < MAX_CACHE_AGE_HOURS * 3600000) := by
  have hbranch : fetchData false cr false fetchResult now =
      { view := some c.data, cacheWrite := none,
        status := SyncStatus.cacheServed
          (decide (MAX_CACHE_AGE_HOURS ≤ (now - c.fetchTime) / 3600000)) } := by
    unfold fetchData
    rw [if_neg (by simp), hcr]
  rw [hbranch]
  refine ⟨rfl, ?_, ?_⟩
  · constructor
    · intro h
      injection h with hb
      exact (Nat.le_div_iff_mul_le (by norm_num)).mp (of_decide_eq_true hb)
    · intro h
      have hd : MAX_CACHE_AGE_HOURS ≤ (now - c.fetchTime) / 3600000 :=
        (Nat.le_div_iff_mul_le (by norm_num)).mpr h
      rw [decide_eq_true hd]
  · constructor
    · intro h
      injection h with hb
      have hnd := of_decide_eq_false hb
      exact (Nat.div_lt_iff_lt_mul (by norm_num)).mp (Nat.not_le.mp hnd)
    · intro h
      have hdiv : (now - c.fetchTime) / 3600000 < MAX_CACHE_AGE_HOURS :=
        (Nat.div_lt_iff_lt_mul (by norm_num)).mpr h
      rw [decide_eq_false (Nat.not_le.mpr hdiv)]

/-- Witness for C8: a 12-hour-old envelope served offline at concrete
inputs. -/
theorem claim_C8_witness :
    (fetchData false (CacheRead.readOk (some wCached)) false none
      (1000 + 43200000)).view = some wCached.data :=
  (claim_C8 (CacheRead.readOk (some wCached)) wCached none (1000 + 43200000)
    rfl (by norm_num [wCached])).1

/-! ### Server cache freshness and error preservation -/

theorem loadHandbookData_some (st : ServerCache) (f : FileRead) :
    loadHandbookData st (some f) =
      if st.cachedData.isSome && st.lastModifiedTime == f.mtime then
        (st.cachedData, st, 0)
      else
        match f.content with
        | none => (none, st, 1)
        | some wb =>
          let d : HandbookData :=
            { timestamp := f.mtime
              office := normalizeOfficeSheet wb.officeSheet
              cabinets := normalizeCabinetsSheet wb.cabinetsSheet }
          (some d, { cachedData := some d, lastModifiedTime := f.mtime }, 1) :=
  rfl

/-- C1 counterexample: with an empty cache and a source file (mtime 5) whose
parse throws, two consecutive requests under the unchanged freshness key
both attempt a parse — the claimed "at most one parse" bound fails. -/
theorem claim_C1_counterexample :
    ¬ ((loadHandbookData { cachedData := none, lastModifiedTime := 0 }
          (some wFileFail)).2.2 +
       (loadHandbookData
          (loadHandbookData { cachedData := none, lastModifiedTime := 0 }
            (some wFileFail)).2.1
          (some wFileFail)).2.2 ≤ 1) := by
  decide

/-- C1 (amended): with a cached snapshot whose stored freshness key equals
the file's current modification time, `loadHandbookData` returns the cached
snapshot with no parse and an unchanged cache slot; hence two consecutive
requests under an unchanged freshness key, the first of which successfully
returns a snapshot, perform at most one parse between them and return the
same snapshot. -/
theorem claim_C1 :
    (∀ (st : ServerCache) (f : FileRead) (d : HandbookData),
      st.cachedData = some d → st.lastModifiedTime = f.mtime →
      loadHandbookData st (some f) = (some d, st, 0)) ∧
    (∀ (st : ServerCache) (f : FileRead) (d : HandbookData),
      (loadHandbookData st (some f)).1 = some d →
      (loadHandbookData (loadHandbookData st (some f)).2.1 (some f)).1 = some d ∧
      (loadHandbookData st (some f)).2.2 +
        (loadHandbookData (loadHandbookData st (some f)).2.1 (some f)).2.2 ≤ 1) := by
  constructor
  · intro st f d h1 h2
    have hc : (st.cachedData.isSome && st.lastModifiedTime == f.mtime) = true := by
      rw [h1, h2]
      simp
    rw [loadHandbookData_some, if_pos hc, h1]
  · intro st f d hs
    by_cases hc : (st.cachedData.isSome && st.lastModifiedTime == f.mtime) = true
    · have h1 : loadHandbookData st (some f) = (st.cachedData, st, 0) := by
        rw [loadHandbookData_some, if_pos hc]
      have hcd : st.cachedData = some d := by
        rw [h1] at hs
        exact hs
      constructor
      · rw [h1]
        show (loadHandbookData st (some f)).1 = some d
        rw [h1]
        exact hcd
      · rw [h1]
        show 0 + (loadHandbookData st (some f)).2.2 ≤ 1
        rw [h1]
        show 0 + 0 ≤ 1
        norm_num
    · cases hfc : f.content with
      | none =>
        have h1 : loadHandbookData st (some f) = (none, st, 1) := by
          rw [loadHandbookData_some, if_neg hc, hfc]
        rw [h1] at hs
        exact Option.noConfusion hs
      | some wb =>
        have h1 : loadHandbookData st (some f) =
            (some { timestamp := f.mtime
                    office := normalizeOfficeSheet wb.officeSheet
                    cabinets := normalizeCabinetsSheet wb.cabinetsSheet },
             { cachedData := some
                 { timestamp := f.mtime
                   office := normalizeOfficeSheet wb.officeSheet
                   cabinets := normalizeCabinetsSheet wb.cabinetsSheet },
               lastModifiedTime := f.mtime }, 1) := by
          rw [loadHandbookData_some, if_neg hc, hfc]
        have hd : some { timestamp := f.mtime
                         office := normalizeOfficeSheet wb.officeSheet
                         cabinets := normalizeCabinetsSheet wb.cabinetsSheet } =
            some d := by
          rw [h1] at hs
          exact hs
        have h2 : loadHandbookData
            { cachedData := some
                { timestamp := f.mtime
                  office := normalizeOfficeSheet wb.officeSheet
                  cabinets := normalizeCabinetsSheet wb.cabinetsSheet },
              lastModifiedTime := f.mtime } (some f) =
            (some { timestamp := f.mtime
                    office := normalizeOfficeSheet wb.officeSheet
                    cabinets := normalizeCabinetsSheet wb.cabinetsSheet },
             { cachedData := some
                 { timestamp := f.mtime
                   office := normalizeOfficeSheet wb.officeSheet
                   cabinets := normalizeCabinetsSheet wb.cabinetsSheet },
               lastModifiedTime := f.mtime }, 0) := by
          rw [loadHandbookData_some, if_pos (by simp)]
        constructor
        · rw [h1]
          show (loadHandbookData
            { cachedData := some
                { timestamp := f.mtime
                  office := normalizeOfficeSheet wb.officeSheet
                  cabinets := normalizeCabinetsSheet wb.cabinetsSheet },
              lastModifiedTime := f.mtime } (some f)).1 = some d
          rw [h2]
          exact hd
        · rw [h1]
          show 1 + (loadHandbookData
            { cachedData := some
                { timestamp := f.mtime
                  office := normalizeOfficeSheet wb.officeSheet
                  cabinets := normalizeCabinetsSheet wb.cabinetsSheet },
              lastModifiedTime := f.mtime } (some f)).2.2 ≤ 1
          rw [h2]
          show 1 + 0 ≤ 1
          norm_num

/-- Witness for C1 at a concrete populated cache state whose key matches the
file's modification time. -/
theorem claim_C1_witness :
    loadHandbookData wCacheSt (some { mtime := 3, content := none }) =
      (some wSnap, wCacheSt, 0) :=
  claim_C1.1 wCacheSt { mtime := 3, content := none } wSnap rfl rfl

/-- C10: when the cache holds a snapshot under a stale key and the reload's
parse throws, the call returns `null` (so the endpoint answers with the
error envelope) while the cache slot — snapshot and freshness key — is left
unchanged, and the health endpoint still reports an active cache. -/
theorem claim_C10 (st : ServerCache) (f : FileRead) (dOld : HandbookData)
    (hcached : st.cachedData = some dOld)
    (hstale : st.lastModifiedTime ≠ f.mtime)
    (hthrow : f.content = none) :
    loadHandbookData st (some f) = (none, st, 1) ∧
    healthCacheStatus st = "active" ∧
    handbookResponse (loadHandbookData st (some f)).1 =
      Envelope.error "Не удалось загрузить данные справочника." := by
  have hcond : (st.cachedData.isSome && st.lastModifiedTime == f.mtime) = false := by
    rw [hcached]
    simp [hstale]
  have h1 : loadHandbookData st (some f) = (none, st, 1) := by
    rw [loadHandbookData_some, if_neg (by rw [hcond]; exact Bool.false_ne_true), hthrow]
  refine ⟨h1, ?_, ?_⟩
  · unfold healthCacheStatus
    rw [hcached]
  · rw [h1]
    rfl

/-- Witness for C10: the populated cache state with key 3 against a file
with key 5 whose parse throws. -/
theorem claim_C10_witness :
    loadHandbookData wCacheSt (some wFileFail) = (none, wCacheSt, 1) :=
  (claim_C10 wCacheSt wFileFail wSnap rfl (by decide) rfl).1

/-! ### The sanitizer yields markup-free, trimmed strings -/

theorem stripTags_no_lt : ∀ (l : List Char) (b : Bool), '<' ∉ stripTags l b := by
  intro l
  induction l with
  | nil =>
    intro b h
    cases b <;> exact List.not_mem_nil _ h
  | cons c rest ih =>
    intro b
    cases b with
    | true =>
      show '<' ∉ (if c = '>' then stripTags rest false else stripTags rest true)
      by_cases h : c = '>'
      · rw [if_pos h]
        exact ih false
      · rw [if_neg h]
        exact ih true
    | false =>
      show '<' ∉ (if c = '<' then stripTags rest true else c :: stripTags rest false)
      by_cases h : c = '<'
      · rw [if_pos h]
        exact ih true
      · rw [if_neg h]
        intro hmem
        rcases List.mem_cons.mp hmem with heq | hmem'
        · exact h heq.symm
        · exact ih false hmem'

theorem trimChars_subset {l : List Char} {c : Char} (h : c ∈ trimChars l) : c ∈ l := by
  unfold trimChars at h
  have h1 : c ∈ (l.dropWhile isWsChar).reverse.dropWhile isWsChar :=
    List.mem_reverse.mp h
  have h2 : c ∈ (l.dropWhile isWsChar).reverse :=
    (List.dropWhile_sublist _).subset h1
  exact (List.dropWhile_sublist _).subset (List.mem_reverse.mp h2)

theorem dropWhile_head_not {α : Type} (p : α → Bool) :
    ∀ (l : List α) (c : α), (l.dropWhile p).head? = some c → p c = false := by
  intro l
  induction l with
  | nil =>
    intro c h
    exact Option.noConfusion h
  | cons a t ih =>
    intro c h
    rw [List.dropWhile_cons] at h
    by_cases hp : p a = true
    · rw [if_pos hp] at h
      exact ih c h
    · rw [if_neg hp] at h
      injection h with hh
      rw [← hh]
      exact Bool.eq_false_iff.mpr hp

theorem dropWhile_getLast {α : Type} (p : α → Bool) :
    ∀ (l : List α), l.dropWhile p ≠ [] → (l.dropWhile p).getLast? = l.getLast? := by
  intro l
  induction l with
  | nil =>
    intro h
    exact absurd rfl h
  | cons a t ih =>
    intro h
    rw [List.dropWhile_cons] at h ⊢
    by_cases hp : p a = true
    · rw [if_pos hp] at h ⊢
      cases t with
      | nil => exact absurd rfl h
      | cons b t2 =>
        rw [ih h, List.getLast?_cons_cons]
    · rw [if_neg hp]

theorem trimChars_trimmed (l : List Char) :
    ((trimChars l).head?.all fun c => !isWsChar c) = true ∧
    ((trimChars l).getLast?.all fun c => !isWsChar c) = true := by
  constructor
  · cases hh : (trimChars l).head? with
    | none => rfl
    | some c =>
      unfold trimChars at hh
      rw [List.head?_reverse] at hh
      have hne : (l.dropWhile isWsChar).reverse.dropWhile isWsChar ≠ [] := by
        intro h0
        rw [h0] at hh
        exact Option.noConfusion hh
      rw [dropWhile_getLast isWsChar _ hne, List.getLast?_reverse] at hh
      have hc := dropWhile_head_not isWsChar l c hh
      show (!isWsChar c) = true
      rw [hc]
      rfl
  · cases hh : (trimChars l).getLast? with
    | none => rfl
    | some c =>
      unfold trimChars at hh
      rw [List.getLast?_reverse] at hh
      have hc := dropWhile_head_not isWsChar _ c hh
      show (!isWsChar c) = true
      rw [hc]
      rfl

theorem sanitizeString_clean (s : String) : cleanStr (sanitizeString s) := by
  refine ⟨?_, ?_⟩
  · show '<' ∉ trimChars (stripTags s.data false)
    intro h
    exact stripTags_no_lt _ false (trimChars_subset h)
  · exact trimChars_trimmed _

theorem cleanStr_empty : cleanStr "" := by
  refine ⟨?_, ?_, ?_⟩
  · intro h
    exact List.not_mem_nil _ h
  · rfl
  · rfl

theorem sanitizeCell_clean (c : Cell) : cleanStr (sanitizeCell c) := by
  cases c with
  | none => exact cleanStr_empty
  | some s =>
    show cleanStr (if s.isEmpty then "" else sanitizeString s)
    by_cases h : s.isEmpty = true
    · rw [if_pos h]
      exact cleanStr_empty
    · rw [if_neg h]
      exact sanitizeString_clean s

/-- C9: every string field of every Person and every Room the Normalizer
emits is markup-free (no `<` survives, hence no tag and no attribute) and
carries no leading or trailing whitespace, for every raw input row. -/
theorem claim_C9 :
    (∀ (r : RawRow) (e : OfficeEmployee), normalizeOfficeRow r = some e →
      cleanStr e.department ∧ cleanStr e.position ∧ cleanStr e.fullName ∧
        cleanStr e.internalNumber ∧ cleanStr e.generalNumber) ∧
    (∀ (r : RawRow) (cb : Cabinet), normalizeCabinetRow r = some cb →
      cleanStr cb.city ∧ cleanStr cb.address ∧ cleanStr cb.internalNumber) := by
  constructor
  · intro r e he
    unfold normalizeOfficeRow at he
    by_cases hb : r.all cellEmpty = true
    · rw [if_pos hb] at he
      exact Option.noConfusion he
    · rw [if_neg hb] at he
      injection he with he'
      rw [← he']
      exact ⟨sanitizeCell_clean _, sanitizeCell_clean _, sanitizeCell_clean _,
        sanitizeCell_clean _, sanitizeCell_clean _⟩
  · intro r cb hcb
    unfold normalizeCabinetRow at hcb
    by_cases hb : r.all cellEmpty = true
    · rw [if_pos hb] at hcb
      exact Option.noConfusion hcb
    · rw [if_neg hb] at hcb
      injection hcb with hcb'
      rw [← hcb']
      exact ⟨sanitizeCell_clean _, sanitizeCell_clean _, sanitizeCell_clean _⟩

/-- Witness for C9: the normalizer output of a concrete markup-laden row has
a clean full name. -/
theorem claim_C9_witness : cleanStr wEmpMarkup.fullName :=
  (claim_C9.1 wRowMarkup wEmpMarkup (by decide)).2.2.1

/-! ### Normalizer default priority and blank rows -/

/-- C5 counterexample: a row whose priority cell fails to parse receives the
default 99 and is grouped *before* the explicitly prioritized entry with
priority 100 — the default is not placed after all explicit entries. -/
theorem claim_C5_counterexample :
    parseIntM (sanitizeCell (cellAt wRowPrioBad 1)) = none ∧
    (flattenGroups (groupAndSortOfficeData
      (normalizeOfficeSheet (some [[], wRowPrioBad, wRowPrioHigh])))).map
        (fun e => e.sortPriority) = [99, 100] := by
  decide

/-- C5 (amended): a people row whose priority cell does not parse as an
integer receives the fixed default priority 99 — placing the record after
all entries with an explicit priority below 99 (within each group the
priorities are non-decreasing), though not after entries whose explicit
priority is 99 or more; and a row in which every cell is empty or absent
produces no record at all. -/
theorem claim_C5 :
    (∀ (r : RawRow) (e : OfficeEmployee),
      parseIntM (sanitizeCell (cellAt r 1)) = none →
      normalizeOfficeRow r = some e → e.sortPriority = 99) ∧
    (∀ X : List OfficeEmployee, ∀ q ∈ groupAndSortOfficeData X,
      q.2.employees.Pairwise (fun a b => a.sortPriority ≤ b.sortPriority)) ∧
    (∀ r : RawRow, r.all cellEmpty = true → normalizeOfficeRow r = none) := by
  refine ⟨?_, ?_, ?_⟩
  · intro r e hparse he
    unfold normalizeOfficeRow at he
    by_cases hb : r.all cellEmpty = true
    · rw [if_pos hb] at he
      exact Option.noConfusion he
    · rw [if_neg hb] at he
      injection he with he'
      rw [← he']
      show jsOrInt (parseIntM (sanitizeCell (cellAt r 1))) 99 = 99
      rw [hparse]
      rfl
  · intro X q hq
    refine (group_employees_sorted X q hq).imp ?_
    intro a b hab
    rcases (pkLe_emp_iff a b).mp hab with hlt | ⟨heq, _⟩
    · exact le_of_lt hlt
    · exact le_of_eq heq
  · intro r hr
    unfold normalizeOfficeRow
    rw [if_pos hr]

/-- Witness for C5: the unparsable-priority row gets priority 99 and the
all-blank row is skipped, at concrete inputs. -/
theorem claim_C5_witness :
    wEmpBadPrio.sortPriority = 99 ∧ normalizeOfficeRow wRowBlank = none :=
  ⟨claim_C5.1 wRowPrioBad wEmpBadPrio (by decide) (by decide),
   claim_C5.2.2 wRowBlank (by decide)⟩

/-! ### Order-independence of the grouping -/

theorem list_eq_of_all_eq {α : Type} (v : α) :
    ∀ (A B : List α), (∀ a ∈ A, a = v) → (∀ b ∈ B, b = v) →
      A.length = B.length → A = B := by
  intro A
  induction A with
  | nil =>
    intro B _ hB hlen
    cases B with
    | nil => rfl
    | cons b bs => exact absurd hlen (by simp)
  | cons a as ih =>
    intro B hA hB hlen
    cases B with
    | nil => exact absurd hlen (by simp)
    | cons b bs =>
      have ha := hA a (List.mem_cons_self a as)
      have hb := hB b (List.mem_cons_self b bs)
      rw [ha, hb]
      have htail : as = bs := by
        refine ih bs (fun x hx => hA x (List.mem_cons_of_mem _ hx))
          (fun x hx => hB x (List.mem_cons_of_mem _ hx)) ?_
        have := hlen
        simp only [List.length_cons] at this
        exact Nat.succ_injective this
      rw [htail]

/-- C3 counterexample: two distinct Person records sharing the same
department, priority and full name — a permutation of the pair changes the
grouped output (the tied employees keep their input order). -/
theorem claim_C3_counterexample :
    ([wEmpB, wEmpA] : List OfficeEmployee).Perm [wEmpA, wEmpB] ∧
    groupAndSortOfficeData [wEmpB, wEmpA] ≠ groupAndSortOfficeData [wEmpA, wEmpB] :=
  ⟨List.Perm.swap wEmpA wEmpB [], by decide⟩

/-- C3 (amended): whenever any two entries of X that share the same
sortPriority and the same lowercased fullName are equal records, every
permutation Y of X yields exactly the same grouped output — same keys in
the same order, same employees sequences, same generalNumber per group. -/
theorem claim_C3 (X Y : List OfficeEmployee)
    (hinj : ∀ a ∈ X, ∀ b ∈ X, empKey a = empKey b → a = b)
    (hperm : Y.Perm X) :
    groupAndSortOfficeData Y = groupAndSortOfficeData X := by
  have hS : sortS empKey pkLe Y = sortS empKey pkLe X := by
    refine sortS_eq_of_classFilters empKey pkLe pkLe_total pkLe_antisymm _ _
      (sortS_sorted empKey pkLe pkLe_total pkLe_trans Y)
      (sortS_sorted empKey pkLe pkLe_total pkLe_trans X) ?_
    intro k
    rw [sortS_classFilter empKey pkLe pkLe_total pkLe_trans,
      sortS_classFilter empKey pkLe pkLe_total pkLe_trans]
    have hlen : (Y.filter fun a => decide (empKey a = k)).length =
        (X.filter fun a => decide (empKey a = k)).length :=
      (hperm.filter _).length_eq
    cases hX : X.filter (fun a => decide (empKey a = k)) with
    | nil =>
      rw [hX] at hlen
      rw [List.length_eq_zero.mp hlen]
    | cons v vs =>
      have hvf : v ∈ X.filter (fun a => decide (empKey a = k)) := by
        rw [hX]
        exact List.mem_cons_self _ _
      have hvX : v ∈ X := (List.mem_filter.mp hvf).1
      have hvk : empKey v = k := of_decide_eq_true (List.mem_filter.mp hvf).2
      have hXall : ∀ a ∈ (v :: vs), a = v := by
        intro a ha
        have ha' : a ∈ X.filter (fun x => decide (empKey x = k)) := by
          rw [hX]
          exact ha
        exact hinj a (List.mem_filter.mp ha').1 v hvX
          ((of_decide_eq_true (List.mem_filter.mp ha').2).trans hvk.symm)
      have hYall : ∀ a ∈ Y.filter (fun x => decide (empKey x = k)), a = v := by
        intro a ha
        exact hinj a (hperm.mem_iff.mp (List.mem_filter.mp ha).1) v hvX
          ((of_decide_eq_true (List.mem_filter.mp ha).2).trans hvk.symm)
      rw [hX] at hlen
      exact list_eq_of_all_eq v _ _ hYall hXall hlen
  unfold groupAndSortOfficeData
  rw [hS]

/-- Witness for C3: a concrete transposition of two key-distinct records
leaves the grouped output unchanged. -/
theorem claim_C3_witness :
    groupAndSortOfficeData [wEmpC, wEmpA] = groupAndSortOfficeData [wEmpA, wEmpC] :=
  claim_C3 [wEmpA, wEmpC] [wEmpC, wEmpA] (by decide) (List.Perm.swap wEmpA wEmpC [])

/-- C4: inside every group of the output the employees are sorted by
priority ascending with ties broken by the case-lowered full name
ascending, and the department keys of the output appear in case-lowered
ascending order. -/
theorem claim_C4 (X : List OfficeEmployee) :
    (∀ q ∈ groupAndSortOfficeData X,
      q.2.employees.Pairwise (fun a b =>
        a.sortPriority < b.sortPriority ∨
          (a.sortPriority = b.sortPriority ∧
            leL (lowerStr a.fullName) (lowerStr b.fullName) = true))) ∧
    (groupAndSortOfficeData X).Pairwise
      (fun p q => leL (lowerStr p.1) (lowerStr q.1) = true) := by
  constructor
  · intro q hq
    refine (group_employees_sorted X q hq).imp ?_
    intro a b hab
    exact (pkLe_emp_iff a b).mp hab
  · exact group_keys_sorted X

/-- Witness for C4: the single group of a concrete input has a sorted
employees list. -/
theorem claim_C4_witness :
    (("D", { employees := [wEmpA], generalNumber := "100" }) :
        String × DeptGroup).2.employees.Pairwise (fun a b =>
      a.sortPriority < b.sortPriority ∨
        (a.sortPriority = b.sortPriority ∧
          leL (lowerStr a.fullName) (lowerStr b.fullName) = true)) :=
  (claim_C4 [wEmpA]).1 ("D", { employees := [wEmpA], generalNumber := "100" })
    (by decide)

/-! ### Block decomposition of a stable sort by key classes -/

theorem filter_flatMap {α β : Type} (L : List β) (g : β → List α) (p : α → Bool) :
    (L.flatMap g).filter p = L.flatMap (fun b => (g b).filter p) := by
  induction L with
  | nil => rfl
  | cons b L ih =>
    rw [List.flatMap_cons, List.flatMap_cons, List.filter_append, ih]

theorem flatMap_congr {α β : Type} (L : List β) {f g : β → List α}
    (h : ∀ b ∈ L, f b = g b) : L.flatMap f = L.flatMap g := by
  induction L with
  | nil => rfl
  | cons b L ih =>
    rw [List.flatMap_cons, List.flatMap_cons, h b (List.mem_cons_self b L),
      ih (fun x hx => h x (List.mem_cons_of_mem _ hx))]

theorem flatMap_delta {α β : Type} [DecidableEq β] (ks : List β) (hn : ks.Nodup)
    (f : β → List α) (k0 : β) (hf : ∀ k ∈ ks, k ≠ k0 → f k = []) :
    ks.flatMap f = if k0 ∈ ks then f k0 else [] := by
  induction ks with
  | nil => rfl
  | cons k rest ih =>
    rw [List.nodup_cons] at hn
    rw [List.flatMap_cons]
    by_cases hk : k = k0
    · subst hk
      rw [if_pos (List.mem_cons_self _ _)]
      have hrest : rest.flatMap f = [] := by
        rw [ih hn.2 (fun x hx hne => hf x (List.mem_cons_of_mem _ hx) hne)]
        rw [if_neg hn.1]
      rw [hrest, List.append_nil]
    · rw [hf k (List.mem_cons_self _ _) hk, List.nil_append,
        ih hn.2 (fun x hx hne => hf x (List.mem_cons_of_mem _ hx) hne)]
      by_cases hm : k0 ∈ rest
      · rw [if_pos hm, if_pos (List.mem_cons_of_mem _ hm)]
      · rw [if_neg hm, if_neg ?_]
        intro hc
        rcases List.mem_cons.mp hc with h1 | h2
        · exact hk h1.symm
        · exact hm h2

theorem mem_map_filter {α β : Type} [DecidableEq β] (f : α → β) (M : List α) (b : β) :
    b ∈ M.map f ↔ M.filter (fun a => decide (f a = b)) ≠ [] := by
  constructor
  · intro h hnil
    rcases List.mem_map.mp h with ⟨a, ha, hfa⟩
    rw [List.filter_eq_nil_iff] at hnil
    exact hnil a ha (by simp [hfa])
  · intro h
    cases hf : M.filter (fun a => decide (f a = b)) with
    | nil => exact absurd hf h
    | cons a t =>
      have ha : a ∈ M.filter (fun x => decide (f x = b)) := by
        rw [hf]
        exact List.mem_cons_self _ _
      exact List.mem_map.mpr
        ⟨a, (List.mem_filter.mp ha).1, of_decide_eq_true (List.mem_filter.mp ha).2⟩

theorem dd_const {β : Type} [DecidableEq β] (d : β) :
    ∀ (A : List β), (∀ x ∈ A, x = d) → dd A = if A.isEmpty then [] else [d] := by
  intro A
  induction A with
  | nil => intro _; rfl
  | cons a A ih =>
    intro h
    have ha : a = d := h a (List.mem_cons_self _ _)
    subst ha
    rw [dd_cons]
    show a :: (dd A).filter (fun x => !(decide (x = a))) = [a]
    have hfa : (dd A).filter (fun x => !(decide (x = a))) = [] := by
      rw [List.filter_eq_nil_iff]
      intro x hx
      have : x = a := h x (List.mem_cons_of_mem _ (mem_dd.mp hx))
      simp [this]
    rw [hfa]

theorem sorted_blocks {α κ : Type} [DecidableEq κ] (key : α → κ) (kle : κ → κ → Bool)
    (htot : ∀ a b, kle a b = true ∨ kle b a = true)
    (ks : List κ) (hks : ks.Pairwise (fun a b => kle a b = true))
    (g : κ → List α) (hg : ∀ k, ∀ a ∈ g k, key a = k) :
    SortedK key kle (ks.flatMap g) := by
  induction ks with
  | nil => exact List.Pairwise.nil
  | cons k rest ih =>
    rw [List.pairwise_cons] at hks
    rw [List.flatMap_cons]
    unfold SortedK
    rw [List.pairwise_append]
    refine ⟨?_, ih hks.2, ?_⟩
    · refine List.pairwise_of_forall_mem_list ?_
      intro a ha b hb
      rw [hg k a ha, hg k b hb]
      exact kle_refl kle htot k
    · intro a ha b hb
      rcases List.mem_flatMap.mp hb with ⟨k2, hk2, hbk2⟩
      rw [hg k a ha, hg k2 b hbk2]
      exact hks.1 k2 hk2

theorem sorted_nodup_mem_eq {κ : Type} (kle : κ → κ → Bool)
    (htot : ∀ a b, kle a b = true ∨ kle b a = true)
    (hanti : ∀ a b, kle a b = true → kle b a = true → a = b) :
    ∀ (l1 l2 : List κ),
      l1.Pairwise (fun a b => kle a b = true) →
      l2.Pairwise (fun a b => kle a b = true) →
      l1.Nodup → l2.Nodup → (∀ k, k ∈ l1 ↔ k ∈ l2) → l1 = l2 := by
  intro l1
  induction l1 with
  | nil =>
    intro l2 _ _ _ _ hm
    cases l2 with
    | nil => rfl
    | cons b t2 =>
      exact absurd ((hm b).mpr (List.mem_cons_self b t2)) (List.not_mem_nil b)
  | cons a t1 ih =>
    intro l2 h1 h2 hn1 hn2 hm
    cases l2 with
    | nil =>
      exact absurd ((hm a).mp (List.mem_cons_self a t1)) (List.not_mem_nil a)
    | cons b t2 =>
      rw [List.pairwise_cons] at h1 h2
      rw [List.nodup_cons] at hn1 hn2
      have hab : a = b := by
        rcases List.mem_cons.mp ((hm a).mp (List.mem_cons_self a t1)) with h | ha2
        · exact h
        · rcases List.mem_cons.mp ((hm b).mpr (List.mem_cons_self b t2)) with h | hb1
          · exact h.symm
          · exact hanti a b (h1.1 b hb1) (h2.1 a ha2)
      subst hab
      have htl : t1 = t2 := by
        refine ih t2 h1.2 h2.2 hn1.2 hn2.2 ?_
        intro k
        constructor
        · intro hk
          rcases List.mem_cons.mp ((hm k).mp (List.mem_cons_of_mem a hk)) with h | h
          · exact absurd (h ▸ hk) hn1.1
          · exact h
        · intro hk
          rcases List.mem_cons.mp ((hm k).mpr (List.mem_cons_of_mem a hk)) with h | h
          · exact absurd (h ▸ hk) hn2.1
          · exact h
      rw [htl]

theorem sortS_char {α κ : Type} [DecidableEq κ] (key : α → κ) (kle : κ → κ → Bool)
    (htot : ∀ a b, kle a b = true ∨ kle b a = true)
    (htrans : ∀ a b c, kle a b = true → kle b c = true → kle a c = true)
    (hanti : ∀ a b, kle a b = true → kle b a = true → a = b)
    (l : List α) :
    sortS key kle l =
      (sortS (fun k : κ => k) kle (dd (l.map key))).flatMap
        (fun k => l.filter (fun a => decide (key a = k))) := by
  have hksnodup : (sortS (fun k : κ => k) kle (dd (l.map key))).Nodup :=
    (sortS_perm (fun k : κ => k) kle (dd (l.map key))).symm.nodup (dd_nodup _)
  refine sortS_eq_of_classFilters key kle htot hanti _ _
    (sortS_sorted key kle htot htrans l) ?_ ?_
  · refine sorted_blocks key kle htot _
      (sortS_sorted (fun k : κ => k) kle htot htrans _) _ ?_
    intro k a ha
    exact of_decide_eq_true (List.mem_filter.mp ha).2
  · intro k0
    rw [sortS_classFilter key kle htot htrans, filter_flatMap]
    have hblocks : ∀ k ∈ sortS (fun k : κ => k) kle (dd (l.map key)),
        k ≠ k0 →
        (l.filter (fun a => decide (key a = k))).filter
          (fun a => decide (key a = k0)) = [] := by
      intro k _ hne
      rw [List.filter_eq_nil_iff]
      intro a ha
      have := of_decide_eq_true (List.mem_filter.mp ha).2
      simp [this, hne]
    rw [flatMap_delta _ hksnodup _ k0 hblocks]
    by_cases hmem : k0 ∈ sortS (fun k : κ => k) kle (dd (l.map key))
    · rw [if_pos hmem, List.filter_filter]
      symm
      refine List.filter_congr ?_
      intro a _
      by_cases hk : key a = k0
      · simp [hk]
      · simp [hk]
    · rw [if_neg hmem]
      rw [List.filter_eq_nil_iff]
      intro a ha hd
      have hk0 : k0 ∈ sortS (fun k : κ => k) kle (dd (l.map key)) := by
        rw [mem_sortS, mem_dd]
        exact List.mem_map.mpr ⟨a, ha, of_decide_eq_true hd⟩
      exact hmem hk0

theorem dd_flatMap_blocks {α β : Type} [DecidableEq β] (f : α → β) (M : List α) :
    ∀ (L : List β), L.Nodup →
      dd ((L.flatMap (fun d => M.filter (fun a => decide (f a = d)))).map f) =
        L.filter (fun d => decide (d ∈ M.map f)) := by
  intro L
  induction L with
  | nil => intro _; rfl
  | cons d L ih =>
    intro hn
    rw [List.nodup_cons] at hn
    rw [List.flatMap_cons, List.map_append, dd_append, ih hn.2]
    by_cases hm : d ∈ M.map f
    · have hblk : ∀ x ∈ (M.filter (fun a => decide (f a = d))).map f, x = d := by
        intro x hx
        rcases List.mem_map.mp hx with ⟨a, ha, hfa⟩
        rw [← hfa]
        exact of_decide_eq_true (List.mem_filter.mp ha).2
      have hne : ¬ (((M.filter (fun a => decide (f a = d))).map f).isEmpty = true) := by
        have h1 := (mem_map_filter f M d).mp hm
        cases hh : M.filter (fun a => decide (f a = d)) with
        | nil => exact absurd hh h1
        | cons a t => simp
      rw [dd_const d _ hblk, if_neg hne]
      have hid : (L.filter (fun x => decide (x ∈ M.map f))).filter
          (fun x => !(decide (x ∈ [d]))) =
          L.filter (fun x => decide (x ∈ M.map f)) := by
        refine List.filter_eq_self.mpr ?_
        intro x hx
        have hxL : x ∈ L := List.mem_of_mem_filter hx
        have hxd : ¬ (x = d) := fun h => hn.1 (h ▸ hxL)
        simp [hxd]
      rw [hid, List.filter_cons_of_pos (by simp [hm]), List.singleton_append]
    · have hfil : M.filter (fun a => decide (f a = d)) = [] := by
        by_contra hne
        exact hm ((mem_map_filter f M d).mpr hne)
      rw [hfil, List.map_nil, show dd ([] : List β) = [] from rfl, List.nil_append]
      have hid : (L.filter (fun x => decide (x ∈ M.map f))).filter
          (fun x => !(decide (x ∈ ([] : List β)))) =
          L.filter (fun x => decide (x ∈ M.map f)) := by
        refine List.filter_eq_self.mpr ?_
        intro x hx
        simp
      rw [hid, List.filter_cons_of_neg (by simp [hm])]

theorem dd_new_keys (P B R : List String) :
    ((dd (P ++ B ++ R)).filter (fun d => decide (d ∈ B))).filter
      (fun x => !(decide (x ∈ dd P))) =
    (dd B).filter (fun x => !(decide (x ∈ dd P))) := by
  rw [dd_append (P ++ B) R, dd_append P B]
  rw [List.filter_append, List.filter_append, List.filter_append, List.filter_append]
  have c1 : ((dd P).filter (fun d => decide (d ∈ B))).filter
      (fun x => !(decide (x ∈ dd P))) = [] := by
    rw [List.filter_filter, List.filter_eq_nil_iff]
    intro x hx
    simp [hx]
  have c2 : (((dd B).filter (fun x => !(decide (x ∈ dd P)))).filter
      (fun d => decide (d ∈ B))).filter (fun x => !(decide (x ∈ dd P))) =
      (dd B).filter (fun x => !(decide (x ∈ dd P))) := by
    rw [List.filter_filter, List.filter_filter]
    refine List.filter_congr ?_
    intro x hx
    have hxB : x ∈ B := mem_dd.mp hx
    by_cases hxP : x ∈ dd P
    · simp [hxP, hxB]
    · simp [hxP, hxB]
  have c3 : (((dd R).filter
      (fun x => !(decide (x ∈ dd P ++ (dd B).filter (fun y => !(decide (y ∈ dd P))))))).filter
      (fun d => decide (d ∈ B))).filter (fun x => !(decide (x ∈ dd P))) = [] := by
    rw [List.filter_filter, List.filter_filter, List.filter_eq_nil_iff]
    intro x hx
    by_cases hxB : x ∈ B
    · by_cases hxP : x ∈ dd P
      · simp [hxP]
      · have hxBP : x ∈ dd P ++ (dd B).filter (fun y => !(decide (y ∈ dd P))) := by
          refine List.mem_append.mpr (Or.inr ?_)
          exact List.mem_filter.mpr ⟨mem_dd.mpr hxB, by simp [hxP]⟩
        simp [hxBP]
    · simp [hxB]
  rw [c1, c2, c3, List.nil_append, List.append_nil]

theorem core2 (T : List OfficeEmployee) (hT : SortedK empKey pkLe T) :
    ∀ (ks pre : List (Int × List Char)),
      sortS (fun k : Int × List Char => k) pkLe (dd (T.map empKey)) = pre ++ ks →
      (dd ((ks.flatMap (fun k => (fkeys T).flatMap
          (fun d => (T.filter (fun e => decide (empKey e = k))).filter
            (fun e => decide (deptKey e = d))))).map deptKey)).filter
        (fun x => !(decide (x ∈ dd ((pre.flatMap
          (fun k => T.filter (fun e => decide (empKey e = k)))).map deptKey)))) =
      (dd ((ks.flatMap
          (fun k => T.filter (fun e => decide (empKey e = k)))).map deptKey)).filter
        (fun x => !(decide (x ∈ dd ((pre.flatMap
          (fun k => T.filter (fun e => decide (empKey e = k)))).map deptKey)))) := by
  intro ks
  induction ks with
  | nil =>
    intro pre hsplit
    rfl
  | cons k ks' ih =>
    intro pre hsplit
    have hchar := sortS_char empKey pkLe pkLe_total pkLe_trans pkLe_antisymm T
    rw [sortS_of_sorted empKey pkLe hT, hsplit] at hchar
    have hmapT : T.map deptKey =
        (pre.flatMap (fun k => T.filter (fun e => decide (empKey e = k)))).map deptKey ++
        ((T.filter (fun e => decide (empKey e = k))).map deptKey ++
          (ks'.flatMap (fun k => T.filter (fun e => decide (empKey e = k)))).map deptKey) := by
      conv_lhs => rw [hchar]
      simp only [List.flatMap_append, List.flatMap_cons, List.map_append]
    have hcomp : ∀ x, x ∈ (T.filter (fun e => decide (empKey e = k))).map deptKey →
        x ∈ fkeys T := by
      intro x hx
      rcases List.mem_map.mp hx with ⟨e, he, hde⟩
      exact fkeys_mem.mpr ⟨e, (List.mem_filter.mp he).1, hde⟩
    simp only [List.flatMap_cons, List.map_append]
    rw [dd_append, dd_append, List.filter_append, List.filter_append]
    rw [dd_flatMap_blocks deptKey (T.filter (fun e => decide (empKey e = k)))
      (fkeys T) (dd_nodup _)]
    congr 1
    · have hfk : fkeys T = dd
          ((pre.flatMap (fun k => T.filter (fun e => decide (empKey e = k)))).map deptKey ++
            (T.filter (fun e => decide (empKey e = k))).map deptKey ++
            (ks'.flatMap (fun k => T.filter (fun e => decide (empKey e = k)))).map deptKey) := by
        unfold fkeys
        rw [hmapT, ← List.append_assoc]
      rw [hfk]
      exact dd_new_keys _ _ _
    · have hseen' : ((pre ++ [k]).flatMap
          (fun k => T.filter (fun e => decide (empKey e = k)))).map deptKey =
          (pre.flatMap (fun k => T.filter (fun e => decide (empKey e = k)))).map deptKey ++
          (T.filter (fun e => decide (empKey e = k))).map deptKey := by
        simp only [List.flatMap_append, List.flatMap_cons, List.flatMap_nil,
          List.append_nil, List.map_append]
      have hL : ((dd ((ks'.flatMap (fun k => (fkeys T).flatMap
            (fun d => (T.filter (fun e => decide (empKey e = k))).filter
              (fun e => decide (deptKey e = d))))).map deptKey)).filter
          (fun x => !(decide (x ∈ (fkeys T).filter
            (fun d => decide (d ∈ (T.filter (fun e => decide (empKey e = k))).map
              deptKey)))))).filter
          (fun x => !(decide (x ∈ dd ((pre.flatMap
            (fun k => T.filter (fun e => decide (empKey e = k)))).map deptKey)))) =
        (dd ((ks'.flatMap (fun k => (fkeys T).flatMap
            (fun d => (T.filter (fun e => decide (empKey e = k))).filter
              (fun e => decide (deptKey e = d))))).map deptKey)).filter
          (fun x => !(decide (x ∈ dd (((pre ++ [k]).flatMap
            (fun k => T.filter (fun e => decide (empKey e = k)))).map deptKey)))) := by
        rw [List.filter_filter]
        refine List.filter_congr ?_
        intro x hx
        rw [hseen']
        by_cases hxB : x ∈ (T.filter (fun e => decide (empKey e = k))).map deptKey
        · have hxf : x ∈ (fkeys T).filter
              (fun d => decide (d ∈ (T.filter (fun e => decide (empKey e = k))).map
                deptKey)) :=
            List.mem_filter.mpr ⟨hcomp x hxB, by simp [hxB]⟩
          have hxs : x ∈ dd
              ((pre.flatMap (fun k => T.filter (fun e => decide (empKey e = k)))).map
                deptKey ++
                (T.filter (fun e => decide (empKey e = k))).map deptKey) := by
            rw [mem_dd]
            exact List.mem_append.mpr (Or.inr hxB)
          simp [hxf, hxs]
        · by_cases hxP : x ∈ dd ((pre.flatMap
              (fun k => T.filter (fun e => decide (empKey e = k)))).map deptKey)
          · have hxs : x ∈ dd
                ((pre.flatMap (fun k => T.filter (fun e => decide (empKey e = k)))).map
                  deptKey ++
                  (T.filter (fun e => decide (empKey e = k))).map deptKey) := by
              rw [mem_dd]
              exact List.mem_append.mpr (Or.inl (mem_dd.mp hxP))
            simp [hxP, hxs]
          · have hxf : x ∉ (fkeys T).filter
                (fun d => decide (d ∈ (T.filter (fun e => decide (empKey e = k))).map
                  deptKey)) := by
              intro hc
              exact hxB (of_decide_eq_true (List.mem_filter.mp hc).2)
            have hxs : x ∉ dd
                ((pre.flatMap (fun k => T.filter (fun e => decide (empKey e = k)))).map
                  deptKey ++
                  (T.filter (fun e => decide (empKey e = k))).map deptKey) := by
              rw [mem_dd]
              intro hc
              rcases List.mem_append.mp hc with h | h
              · exact hxP (mem_dd.mpr h)
              · exact hxB h
            simp [hxf, hxs, hxP]
      have hR : ((dd ((ks'.flatMap
            (fun k => T.filter (fun e => decide (empKey e = k)))).map deptKey)).filter
          (fun x => !(decide (x ∈ dd ((T.filter
            (fun e => decide (empKey e = k))).map deptKey))))).filter
          (fun x => !(decide (x ∈ dd ((pre.flatMap
            (fun k => T.filter (fun e => decide (empKey e = k)))).map deptKey)))) =
        (dd ((ks'.flatMap
            (fun k => T.filter (fun e => decide (empKey e = k)))).map deptKey)).filter
          (fun x => !(decide (x ∈ dd (((pre ++ [k]).flatMap
            (fun k => T.filter (fun e => decide (empKey e = k)))).map deptKey)))) := by
        rw [List.filter_filter]
        refine List.filter_congr ?_
        intro x hx
        rw [hseen']
        by_cases hxB : x ∈ (T.filter (fun e => decide (empKey e = k))).map deptKey
        · have hxB' : x ∈ dd ((T.filter (fun e => decide (empKey e = k))).map deptKey) :=
            mem_dd.mpr hxB
          have hxs : x ∈ dd
              ((pre.flatMap (fun k => T.filter (fun e => decide (empKey e = k)))).map
                deptKey ++
                (T.filter (fun e => decide (empKey e = k))).map deptKey) := by
            rw [mem_dd]
            exact List.mem_append.mpr (Or.inr hxB)
          simp [hxB', hxs]
        · have hxB' : x ∉ dd ((T.filter (fun e => decide (empKey e = k))).map deptKey) :=
            fun hc => hxB (mem_dd.mp hc)
          by_cases hxP : x ∈ dd ((pre.flatMap
              (fun k => T.filter (fun e => decide (empKey e = k)))).map deptKey)
          · have hxs : x ∈ dd
                ((pre.flatMap (fun k => T.filter (fun e => decide (empKey e = k)))).map
                  deptKey ++
                  (T.filter (fun e => decide (empKey e = k))).map deptKey) := by
              rw [mem_dd]
              exact List.mem_append.mpr (Or.inl (mem_dd.mp hxP))
            simp [hxP, hxs]
          · have hxs : x ∉ dd
                ((pre.flatMap (fun k => T.filter (fun e => decide (empKey e = k)))).map
                  deptKey ++
                  (T.filter (fun e => decide (empKey e = k))).map deptKey) := by
              rw [mem_dd]
              intro hc
              rcases List.mem_append.mp hc with h | h
              · exact hxP (mem_dd.mpr h)
              · exact hxB h
            simp [hxB', hxs, hxP]
      rw [hL, hR]
      exact ih (pre ++ [k]) (by rw [hsplit, List.append_assoc, List.singleton_append])

theorem core_fkeys (T : List OfficeEmployee) (hT : SortedK empKey pkLe T) :
    dd ((sortS empKey pkLe ((fkeys T).flatMap
        (fun d => T.filter (fun e => decide (deptKey e = d))))).map deptKey) =
      dd (T.map deptKey) := by
  have hWmem : ∀ e, e ∈ (fkeys T).flatMap
      (fun d => T.filter (fun x => decide (deptKey x = d))) ↔ e ∈ T := by
    intro e
    constructor
    · intro h
      rcases List.mem_flatMap.mp h with ⟨d, _, he⟩
      exact (List.mem_filter.mp he).1
    · intro h
      refine List.mem_flatMap.mpr
        ⟨deptKey e, fkeys_mem.mpr ⟨e, h, rfl⟩, List.mem_filter.mpr ⟨h, by simp⟩⟩
  have hKS : sortS (fun k : Int × List Char => k) pkLe
      (dd (((fkeys T).flatMap (fun d => T.filter
        (fun x => decide (deptKey x = d)))).map empKey)) =
      sortS (fun k : Int × List Char => k) pkLe (dd (T.map empKey)) := by
    refine sorted_nodup_mem_eq pkLe pkLe_total pkLe_antisymm _ _
      (sortS_sorted (fun k : Int × List Char => k) pkLe pkLe_total pkLe_trans _)
      (sortS_sorted (fun k : Int × List Char => k) pkLe pkLe_total pkLe_trans _)
      ((sortS_perm (fun k : Int × List Char => k) pkLe _).symm.nodup (dd_nodup _))
      ((sortS_perm (fun k : Int × List Char => k) pkLe _).symm.nodup (dd_nodup _)) ?_
    intro k
    rw [mem_sortS, mem_sortS, mem_dd, mem_dd]
    constructor
    · intro h
      rcases List.mem_map.mp h with ⟨e, he, hk⟩
      exact List.mem_map.mpr ⟨e, (hWmem e).mp he, hk⟩
    · intro h
      rcases List.mem_map.mp h with ⟨e, he, hk⟩
      exact List.mem_map.mpr ⟨e, (hWmem e).mpr he, hk⟩
  have hcharW := sortS_char empKey pkLe pkLe_total pkLe_trans pkLe_antisymm
    ((fkeys T).flatMap (fun d => T.filter (fun x => decide (deptKey x = d))))
  rw [hKS] at hcharW
  have hblocks : (sortS (fun k : Int × List Char => k) pkLe
      (dd (T.map empKey))).flatMap
        (fun k => ((fkeys T).flatMap (fun d => T.filter
          (fun x => decide (deptKey x = d)))).filter
            (fun a => decide (empKey a = k))) =
      (sortS (fun k : Int × List Char => k) pkLe (dd (T.map empKey))).flatMap
        (fun k => (fkeys T).flatMap
          (fun d => (T.filter (fun e => decide (empKey e = k))).filter
            (fun e => decide (deptKey e = d)))) := by
    refine flatMap_congr _ ?_
    intro k _
    rw [filter_flatMap]
    refine flatMap_congr _ ?_
    intro d _
    rw [List.filter_filter, List.filter_filter]
    refine List.filter_congr ?_
    intro e _
    exact Bool.and_comm _ _
  rw [hcharW, hblocks]
  have hcharT := sortS_char empKey pkLe pkLe_total pkLe_trans pkLe_antisymm T
  rw [sortS_of_sorted empKey pkLe hT] at hcharT
  have h0 := core2 T hT (sortS (fun k : Int × List Char => k) pkLe (dd (T.map empKey)))
    [] (by rw [List.nil_append])
  have hid1 : ∀ (L : List String), L.filter
      (fun x => !(decide (x ∈ dd ((([] : List (Int × List Char)).flatMap
        (fun k => T.filter (fun e => decide (empKey e = k)))).map deptKey)))) = L := by
    intro L
    refine List.filter_eq_self.mpr ?_
    intro x hx
    have hnil : dd ((([] : List (Int × List Char)).flatMap
        (fun k => T.filter (fun e => decide (empKey e = k)))).map deptKey) = [] := rfl
    rw [hnil]
    simp
  rw [hid1, hid1] at h0
  rw [h0, ← hcharT]

theorem filter_map_comm {α β : Type} (f : α → β) (p : β → Bool) (l : List α) :
    (l.map f).filter p = (l.filter (fun a => p (f a))).map f := by
  induction l with
  | nil => rfl
  | cons a t ih =>
    rw [List.map_cons]
    by_cases hp : p (f a) = true
    · rw [List.filter_cons_of_pos hp,
        show List.filter (fun x => p (f x)) (a :: t) =
          a :: List.filter (fun x => p (f x)) t from List.filter_cons_of_pos hp,
        List.map_cons, ih]
    · rw [List.filter_cons_of_neg hp,
        show List.filter (fun x => p (f x)) (a :: t) =
          List.filter (fun x => p (f x)) t from List.filter_cons_of_neg hp, ih]

theorem flatMap_if_filter {α β : Type} (L : List β) (p : β → Bool) (g : β → List α) :
    (L.flatMap fun b => if p b = true then g b else []) = (L.filter p).flatMap g := by
  induction L with
  | nil => rfl
  | cons b L ih =>
    rw [List.flatMap_cons]
    by_cases hp : p b = true
    · rw [if_pos hp, List.filter_cons_of_pos hp, List.flatMap_cons, ih]
    · rw [if_neg hp, List.filter_cons_of_neg hp, List.nil_append, ih]

theorem flattenGroups_map (S : List OfficeEmployee) (L : List String) :
    flattenGroups (L.map (entryFn S)) =
      L.flatMap (fun d => S.filter (fun e => decide (deptKey e = d))) := by
  unfold flattenGroups
  induction L with
  | nil => rfl
  | cons d L ih =>
    rw [List.map_cons, List.flatMap_cons, List.flatMap_cons, ih]
    rfl

theorem step1_filters (X : List OfficeEmployee) (d : String) :
    (sortS empKey pkLe ((sortS dkLow leL (fkeys (sortS empKey pkLe X))).flatMap
      (fun d' => (sortS empKey pkLe X).filter
        (fun e => decide (deptKey e = d'))))).filter
      (fun e => decide (deptKey e = d)) =
    (sortS empKey pkLe X).filter (fun e => decide (deptKey e = d)) := by
  rw [filter_sortS empKey pkLe pkLe_total pkLe_trans, filter_flatMap]
  have hnodup : (sortS dkLow leL (fkeys (sortS empKey pkLe X))).Nodup :=
    (sortS_perm dkLow leL _).symm.nodup (dd_nodup _)
  have hf : ∀ d' ∈ sortS dkLow leL (fkeys (sortS empKey pkLe X)), d' ≠ d →
      ((sortS empKey pkLe X).filter (fun e => decide (deptKey e = d'))).filter
        (fun e => decide (deptKey e = d)) = [] := by
    intro d' _ hne
    rw [List.filter_eq_nil_iff]
    intro e he hd
    have h1 : deptKey e = d' := of_decide_eq_true (List.mem_filter.mp he).2
    exact hne (h1.symm.trans (of_decide_eq_true hd))
  rw [flatMap_delta _ hnodup _ d hf]
  by_cases hm : d ∈ sortS dkLow leL (fkeys (sortS empKey pkLe X))
  · rw [if_pos hm]
    show sortS empKey pkLe (((sortS empKey pkLe X).filter
        (fun e => decide (deptKey e = d))).filter
          (fun e => decide (deptKey e = d))) = _
    rw [List.filter_filter]
    have hself : (sortS empKey pkLe X).filter
        (fun a => decide (deptKey a = d) && decide (deptKey a = d)) =
        (sortS empKey pkLe X).filter (fun a => decide (deptKey a = d)) :=
      List.filter_congr (fun a _ => Bool.and_self _)
    rw [hself]
    exact sortS_of_sorted empKey pkLe
      ((sortS_sorted empKey pkLe pkLe_total pkLe_trans X).sublist
        (List.filter_sublist _))
  · rw [if_neg hm]
    have hnil : (sortS empKey pkLe X).filter (fun e => decide (deptKey e = d)) = [] := by
      by_contra hne
      exact hm ((mem_sortS _ _).mpr (fkeys_mem_filter.mpr hne))
    rw [hnil]
    rfl

theorem step2_keys (X : List OfficeEmployee) :
    sortS dkLow leL (fkeys (sortS empKey pkLe
      ((sortS dkLow leL (fkeys (sortS empKey pkLe X))).flatMap
        (fun d => (sortS empKey pkLe X).filter
          (fun e => decide (deptKey e = d)))))) =
    sortS dkLow leL (fkeys (sortS empKey pkLe X)) := by
  refine sortS_eq_of_classFilters dkLow leL leL_total leL_antisymm _ _
    (sortS_sorted dkLow leL leL_total leL_trans _)
    (sortS_sorted dkLow leL leL_total leL_trans _) ?_
  intro c
  rw [sortS_classFilter dkLow leL leL_total leL_trans,
    sortS_classFilter dkLow leL leL_total leL_trans]
  have hRHS : (fkeys (sortS empKey pkLe X)).filter (fun a => decide (dkLow a = c)) =
      fkeys ((sortS empKey pkLe X).filter
        (fun e => decide (dkLow (deptKey e) = c))) := by
    show (dd ((sortS empKey pkLe X).map deptKey)).filter (fun a => decide (dkLow a = c)) =
      dd (((sortS empKey pkLe X).filter
        (fun e => decide (dkLow (deptKey e) = c))).map deptKey)
    rw [dd_filter,
      show ((sortS empKey pkLe X).map deptKey).filter (fun a => decide (dkLow a = c)) =
        ((sortS empKey pkLe X).filter
          (fun e => decide (dkLow (deptKey e) = c))).map deptKey
      from filter_map_comm deptKey (fun a => decide (dkLow a = c)) _]
  have hhomog : ∀ d : String,
      ((sortS empKey pkLe X).filter (fun e => decide (deptKey e = d))).filter
        (fun e => decide (dkLow (deptKey e) = c)) =
      if decide (dkLow d = c) = true then
        (sortS empKey pkLe X).filter (fun e => decide (deptKey e = d))
      else [] := by
    intro d
    by_cases hd : decide (dkLow d = c) = true
    · rw [if_pos hd]
      refine List.filter_eq_self.mpr ?_
      intro e he
      have hde : deptKey e = d := of_decide_eq_true (List.mem_filter.mp he).2
      rw [hde]
      exact hd
    · rw [if_neg hd, List.filter_eq_nil_iff]
      intro e he hc2
      have hde : deptKey e = d := of_decide_eq_true (List.mem_filter.mp he).2
      rw [hde] at hc2
      exact hd hc2
  have hKfilter : (sortS dkLow leL (fkeys (sortS empKey pkLe X))).filter
      (fun a => decide (dkLow a = c)) =
      fkeys ((sortS empKey pkLe X).filter
        (fun e => decide (dkLow (deptKey e) = c))) := by
    rw [sortS_classFilter dkLow leL leL_total leL_trans]
    exact hRHS
  have hslice : ∀ d ∈ fkeys ((sortS empKey pkLe X).filter
      (fun e => decide (dkLow (deptKey e) = c))),
      (sortS empKey pkLe X).filter (fun e => decide (deptKey e = d)) =
      ((sortS empKey pkLe X).filter
        (fun e => decide (dkLow (deptKey e) = c))).filter
          (fun e => decide (deptKey e = d)) := by
    intro d hd
    have hdc : dkLow d = c := by
      rcases fkeys_mem.mp hd with ⟨e, he, hde⟩
      rw [← hde]
      exact of_decide_eq_true (List.mem_filter.mp he).2
    rw [List.filter_filter]
    refine List.filter_congr ?_
    intro e _
    by_cases hed : deptKey e = d
    · simp [hed, hdc]
    · simp [hed]
  have hTcs : SortedK empKey pkLe ((sortS empKey pkLe X).filter
      (fun e => decide (dkLow (deptKey e) = c))) :=
    List.Pairwise.sublist (List.filter_sublist _)
      (sortS_sorted empKey pkLe pkLe_total pkLe_trans X)
  have hL : (fkeys (sortS empKey pkLe
      ((sortS dkLow leL (fkeys (sortS empKey pkLe X))).flatMap
        (fun d => (sortS empKey pkLe X).filter
          (fun e => decide (deptKey e = d)))))).filter
            (fun a => decide (dkLow a = c)) =
      dd ((sortS empKey pkLe
        ((fkeys ((sortS empKey pkLe X).filter
          (fun e => decide (dkLow (deptKey e) = c)))).flatMap
            (fun d => ((sortS empKey pkLe X).filter
              (fun e => decide (dkLow (deptKey e) = c))).filter
                (fun e => decide (deptKey e = d))))).map deptKey) := by
    show (dd ((sortS empKey pkLe
      ((sortS dkLow leL (fkeys (sortS empKey pkLe X))).flatMap
        (fun d => (sortS empKey pkLe X).filter
          (fun e => decide (deptKey e = d))))).map deptKey)).filter
            (fun a => decide (dkLow a = c)) = _
    rw [dd_filter,
      show ((sortS empKey pkLe
        ((sortS dkLow leL (fkeys (sortS empKey pkLe X))).flatMap
          (fun d => (sortS empKey pkLe X).filter
            (fun e => decide (deptKey e = d))))).map deptKey).filter
              (fun a => decide (dkLow a = c)) =
        ((sortS empKey pkLe
          ((sortS dkLow leL (fkeys (sortS empKey pkLe X))).flatMap
            (fun d => (sortS empKey pkLe X).filter
              (fun e => decide (deptKey e = d))))).filter
                (fun e => decide (dkLow (deptKey e) = c))).map deptKey
      from filter_map_comm deptKey (fun a => decide (dkLow a = c)) _,
      filter_sortS empKey pkLe pkLe_total pkLe_trans, filter_flatMap,
      flatMap_congr (sortS dkLow leL (fkeys (sortS empKey pkLe X)))
        (fun d _ => hhomog d),
      flatMap_if_filter, hKfilter]
    exact congrArg (fun W0 => dd ((sortS empKey pkLe W0).map deptKey))
      (flatMap_congr _ hslice)
  rw [hRHS, hL]
  exact core_fkeys _ hTcs

/-- C2: grouping is idempotent — flattening the grouped-and-sorted office
data back into a flat employee list and grouping it again reproduces exactly
the same grouped structure: the same department keys in the same order, each
with the same employees in the same order and the same general number. -/
theorem claim_C2 (X : List OfficeEmployee) :
    groupAndSortOfficeData (flattenGroups (groupAndSortOfficeData X)) =
      groupAndSortOfficeData X := by
  rw [groupAndSort_char X, flattenGroups_map, groupAndSort_char, step2_keys X]
  refine List.map_congr_left ?_
  intro d _
  unfold entryFn
  rw [step1_filters X d]
